import Mathlib

/-!
Verification development for the audio-labeller signal-processing core.

The TypeScript source (FFT class, Hann window, mel utilities,
`computeSpectrogram`, `applyMaskAndReconstruct`) is embedded shallowly:

* JS `number` is idealized as an arbitrary `LinearOrderedField α`
  (instantiated at `ℝ` for analytic claims, and at `ℚ` for executable
  witnesses).  `Math.cos`, `Math.sin`, `Math.sqrt`, `Math.log10`,
  `Math.pow(10,·)` and `Math.PI` are supplied by an `AnalyticOps`
  structure, instantiated with the genuine real functions in `realOps`.
* `Float32Array`s are total functions `ℕ → α`; in-place writes are
  `Function.update`; in-place loops are `List.foldl` over index ranges.
  Simple tabulation loops (fill a fresh array, one write per index) are
  written in their pointwise closed form.
* `Math.floor((data.length - windowSize) / hopSize)` on integer inputs is
  `Int.fdiv` (floor division), exact for every nonzero hop.  `hopSize = 0`
  makes the JS code divide by zero (an infinite frame loop when the signal
  is longer than the window) and is excluded by hypotheses where relevant.
-/

set_option autoImplicit false

namespace AudioCore

/-- The transcendental primitives used by the source, abstracted so that the
embedding is polymorphic over the scalar field.  `pow10 x` models
`Math.pow(10, x)`. -/
structure AnalyticOps (α : Type) where
  cos : α → α
  sin : α → α
  sqrt : α → α
  log10 : α → α
  pow10 : α → α
  pi : α

variable {α : Type} [LinearOrderedField α]

/-- The real instantiation of the numeric primitives: the idealized semantics
of the JS `Math` functions. -/
noncomputable def realOps : AnalyticOps ℝ where
  cos := Real.cos
  sin := Real.sin
  sqrt := Real.sqrt
  log10 := fun x => Real.logb 10 x
  pow10 := fun x => (10 : ℝ) ^ x
  pi := Real.pi

/-- A dummy computable instantiation over `ℚ`, used only to evaluate
shape-level witnesses (the shape of every result is independent of the
transcendental primitives). -/
def qOps : AnalyticOps ℚ where
  cos := fun _ => 0
  sin := fun _ => 0
  sqrt := fun _ => 0
  log10 := fun _ => 0
  pow10 := fun _ => 0
  pi := 0

/-- The FFT plan: `class FFT` of the source.  `n` is the transform size,
`m = Math.log2(n)` the stage count (`Nat.log2` agrees with the JS value for
powers of two, and with the number of stages the JS loop actually runs —
`floor (log2 n)` — for every other `n`), and `cosT`/`sinT` are the
precomputed twiddle tables `cos[i] = cos(2πi/n)`, `sin[i] = sin(2πi/n)`
(tables of length `n/2`; the embedding keeps them as total functions, the
code only ever reads indices `< n/2`). -/
structure FFT (α : Type) where
  n : ℕ
  m : ℕ
  cosT : ℕ → α
  sinT : ℕ → α

/-- The `FFT` constructor: plan for size `n` with twiddle tables built from
the supplied numeric primitives. -/
def FFT.make (ops : AnalyticOps α) (n : ℕ) : FFT α where
  n := n
  m := Nat.log2 n
  cosT := fun i => ops.cos (2 * ops.pi * i / n)
  sinT := fun i => ops.sin (2 * ops.pi * i / n)

namespace FFT

/-- In-place swap of the entries at `i` and `j` (the three-assignment swap of
the source: the value written at `j` is the value read at `i` before the
first write). -/
def swapAt (a : ℕ → α) (i j : ℕ) : ℕ → α :=
  Function.update (Function.update a i (a j)) j (a i)

/-- The butterfly-increment of the bit-reversal loop:
`while (k <= j) { j -= k; k >>= 1 }; j += k`.
The `0 < k` guard makes the recursion well-founded.  For power-of-two `n` —
the domain of every theorem that runs `forward` — the JS loop provably exits
with `k ≥ 1` on every state it reaches (`incRev_bitRev` below), so on that
domain the guard never changes the computed value.  For every other `n` the
JS loop can reach `k = 0` with `k ≤ j` still true and then never exits, so
`forward` diverges; that behavior is modeled faithfully, without the guard,
by `incRevFuel`/`bitrevTrace` in the C3 section, and no theorem uses a value
of `incRev` outside the power-of-two domain. -/
def incRev (k j : ℕ) : ℕ :=
  if h : 0 < k ∧ k ≤ j then incRev (k / 2) (j - k) else j + k
termination_by k
decreasing_by exact Nat.div_lt_self h.1 one_lt_two

/-- One iteration of the bit-reversal permutation loop of `forward`: state is
`(real, imag, j)`; swap at `(i, j)` when `i < j`, then advance `j` by the
butterfly increment starting from `k = n >> 1 = n / 2`. -/
def bitrevStep (n : ℕ) (st : (ℕ → α) × (ℕ → α) × ℕ) (i : ℕ) :
    (ℕ → α) × (ℕ → α) × ℕ :=
  let re := st.1
  let im := st.2.1
  let j := st.2.2
  if i < j then (swapAt re i j, swapAt im i j, incRev (n / 2) j)
  else (re, im, incRev (n / 2) j)

/-- The butterfly body of the stage loop, at stage block size `M = 2^s`,
half-block `M2 = M/2`, twiddle offset `j`, acting at position `k`:
`wr = cos[j*(n/M)]`, `wi = -sin[j*(n/M)]`,
`tr = wr*re[k+M2] - wi*im[k+M2]`, `ti = wr*im[k+M2] + wi*re[k+M2]`,
then `re[k+M2] = re[k] - tr`, `im[k+M2] = im[k] - ti`,
`re[k] += tr`, `im[k] += ti` (in this write order). -/
def butterfly (cosT sinT : ℕ → α) (n M M2 j : ℕ)
    (st : (ℕ → α) × (ℕ → α)) (k : ℕ) : (ℕ → α) × (ℕ → α) :=
  let wr := cosT (j * (n / M))
  let wi := -sinT (j * (n / M))
  let re := st.1
  let im := st.2
  let tr := wr * re (k + M2) - wi * im (k + M2)
  let ti := wr * im (k + M2) + wi * re (k + M2)
  let re1 := Function.update re (k + M2) (re k - tr)
  let im1 := Function.update im (k + M2) (im k - ti)
  (Function.update re1 k (re1 k + tr), Function.update im1 k (im1 k + ti))

/-- The index list visited by `for (let k = start; k < stop; k += step)`. -/
def iterList (start step stop : ℕ) : List ℕ :=
  (List.range ((stop - start + step - 1) / step)).map (fun b => start + b * step)

/-- One stage `s` of the iterative Cooley–Tukey loop: `M = 1 << s`,
`M2 = M >> 1`, and for each twiddle offset `j < M2` the butterfly is applied
at `k = j, j + M, j + 2M, …  (< n)`. -/
def stageStep (p : FFT α) (st : (ℕ → α) × (ℕ → α)) (s : ℕ) :
    (ℕ → α) × (ℕ → α) :=
  let M := 2 ^ s
  let M2 := M / 2
  List.foldl
    (fun st2 j => List.foldl (butterfly p.cosT p.sinT p.n M M2 j) st2 (iterList j M p.n))
    st (List.range M2)

/-- `FFT.forward`: the in-place decimation-in-time FFT — the bit-reversal
permutation loop over `i ∈ [0, n-1)` followed by stages `s = 1, …, m`. -/
def forward (p : FFT α) (st : (ℕ → α) × (ℕ → α)) : (ℕ → α) × (ℕ → α) :=
  let b := List.foldl (bitrevStep p.n) (st.1, st.2, 0) (List.range (p.n - 1))
  List.foldl (stageStep p) (b.1, b.2.1) (List.range' 1 p.m)

/-- `FFT.inverse`: negate the imaginary buffer, run `forward`, then scale the
real buffer by `1/n` and the imaginary buffer by `-1/n` (each loop runs over
indices `< n`). -/
def inverse (p : FFT α) (st : (ℕ → α) × (ℕ → α)) : (ℕ → α) × (ℕ → α) :=
  let st1 := (st.1, fun i => if i < p.n then -(st.2 i) else st.2 i)
  let st2 := forward p st1
  (fun i => if i < p.n then st2.1 i / p.n else st2.1 i,
   fun i => if i < p.n then st2.2 i / (-(p.n : α)) else st2.2 i)

end FFT

/-- `hanningWindow n`: `w[i] = 0.5 * (1 - cos(2πi/(n-1)))` (the source fills
an array of length `n`; only indices `< n` are ever read). -/
def hanningWindow (ops : AnalyticOps α) (n : ℕ) : ℕ → α :=
  fun i => 1 / 2 * (1 - ops.cos (2 * ops.pi * i / ((n : α) - 1)))

/-- `hzToMel(hz) = 2595 * log10(1 + hz/700)`. -/
def hzToMel (ops : AnalyticOps α) (hz : α) : α :=
  2595 * ops.log10 (1 + hz / 700)

/-- `melToHz(mel) = 700 * (10^(mel/2595) - 1)`. -/
def melToHz (ops : AnalyticOps α) (mel : α) : α :=
  700 * (ops.pow10 (mel / 2595) - 1)

/-- `numFrames = Math.floor((signalLength - windowSize) / hopSize)`, as the
floor of the exact rational quotient (negative when the signal is shorter
than the window).  Exact for every `hopSize ≠ 0`; `hopSize = 0` makes the JS
division produce `±Infinity`/`NaN` (and the frame loop spin when
`signalLength > windowSize`) and is excluded by hypotheses wherever a claim
quantifies over hops. -/
def numFrames (L n : ℕ) (h : ℤ) : ℤ :=
  ⌊(((L : ℚ) - (n : ℚ)) / (h : ℚ))⌋

/-- The `melBinsCount + 2` mel boundary frequencies, equally spaced in mel
space between `hzToMel 0` and `hzToMel (sampleRate / 2)` and mapped back to
Hz. -/
def melPoints (ops : AnalyticOps α) (sr : ℕ) (mB : ℕ) : ℕ → α :=
  fun i =>
    let minMel := hzToMel ops 0
    let maxMel := hzToMel ops ((sr : α) / 2)
    melToHz ops (minMel + (i * (maxMel - minMel)) / ((mB : α) + 1))

/-- `binPoints[i] = Math.floor((windowSize + 1) * melPoints[i] / sampleRate)`. -/
def binPoints [FloorRing α] (ops : AnalyticOps α) (sr n mB : ℕ) : ℕ → ℤ :=
  fun i => ⌊((n : α) + 1) * melPoints ops sr mB i / (sr : α)⌋

/-- The `i`-th triangular mel filter, as the contents of the freshly zeroed
`Float32Array(windowSize/2 + 1)` after the two write loops
(`j ∈ [binPoints[i], binPoints[i+1])` rising, then
`j ∈ [binPoints[i+1], binPoints[i+2])` falling; the ranges are disjoint, and a
write outside `[0, n/2]` would fall outside the array and is dropped, which
the `j ≤ n/2` guard reproduces). -/
def melFilter [FloorRing α] (ops : AnalyticOps α) (sr n mB : ℕ) (i : ℕ) : ℕ → α :=
  fun j =>
    let b0 := binPoints ops sr n mB i
    let b1 := binPoints ops sr n mB (i + 1)
    let b2 := binPoints ops sr n mB (i + 2)
    if j ≤ n / 2 then
      if b1 ≤ (j : ℤ) ∧ (j : ℤ) < b2 then
        ((b2 : α) - (j : α)) / ((b2 : α) - (b1 : α))
      else if b0 ≤ (j : ℤ) ∧ (j : ℤ) < b1 then
        ((j : α) - (b0 : α)) / ((b1 : α) - (b0 : α))
      else 0
    else 0

/-- The windowed real input frame at sample offset `start`:
`real[i] = data[start + i] * window[i]` for `i < n` over a fresh zero array
(the imaginary frame stays zero). -/
def frameRe (ops : AnalyticOps α) (data : ℕ → α) (start n : ℕ) : ℕ → α :=
  fun i => if i < n then data (start + i) * hanningWindow ops n i else 0

/-- Magnitudes of the transformed frame: `sqrt(re[i]*re[i] + im[i]*im[i])`. -/
def magnitudes (ops : AnalyticOps α) (st : (ℕ → α) × (ℕ → α)) : ℕ → α :=
  fun i => ops.sqrt (st.1 i * st.1 i + st.2 i * st.2 i)

/-- One spectrogram row: each mel filter is applied as a weighted sum of the
`windowSize/2 + 1` magnitudes and converted to dB by
`20 * log10(max(1e-10, sum))`. -/
def melFrame [FloorRing α] (ops : AnalyticOps α) (sr n mB : ℕ) (mag : ℕ → α) :
    List α :=
  (List.range mB).map (fun i =>
    20 * ops.log10 (max (1 / 10 ^ 10) (∑ k ∈ Finset.range (n / 2 + 1), mag k * melFilter ops sr n mB i k)))

/-- The result record of `computeSpectrogram`. -/
structure SpectroResult (α : Type) where
  spectrogram : List (List α)
  frequencies : List α
  times : List α

/-- `computeSpectrogram(audioBuffer, windowSize, hopSize, melBinsCount)`:
the signal is `data` with `L` samples at rate `sr`. -/
def computeSpectrogram [FloorRing α] (ops : AnalyticOps α) (data : ℕ → α)
    (L sr : ℕ) (n : ℕ) (h : ℤ) (mB : ℕ) : SpectroResult α :=
  let fft := FFT.make ops n
  { spectrogram :=
      (List.range (numFrames L n h).toNat).map (fun (f : ℕ) =>
        let start := ((f : ℤ) * h).toNat
        let st := fft.forward (frameRe ops data start n, fun _ => 0)
        melFrame ops sr n mB (magnitudes ops st))
    frequencies := (List.range mB).map (fun (i : ℕ) => melPoints ops sr mB (i + 1))
    times := (List.range (numFrames L n h).toNat).map
      (fun (i : ℕ) => (i : α) * (h : α) / (sr : α)) }

/-- A mask interval as consumed by `applyMaskAndReconstruct`: the annotation
fields `x` (start, fraction of total duration) and `width` (duration,
fraction of total duration); the `id`/`label` fields play no role in the
core. -/
structure MaskInterval (α : Type) where
  x : α
  width : α

/-- The source's per-frame mask test:
`timePos >= ann.x && timePos <= ann.x + ann.width` for some annotation. -/
def isTimeMasked (masks : List (MaskInterval α)) (tp : α) : Bool :=
  masks.any (fun a => decide (a.x ≤ tp ∧ tp ≤ a.x + a.width))

/-- The frame spectrum fed to the inverse transform for frame `f`: the
forward FFT of the windowed frame, cleared to zero (`fill(0)` on both
buffers) when the frame's time position is masked. -/
def frameSpectrum (ops : AnalyticOps α) (data : ℕ → α)
    (masks : List (MaskInterval α)) (n : ℕ) (start : ℕ) (tp : α) :
    (ℕ → α) × (ℕ → α) :=
  let st := (FFT.make ops n).forward (frameRe ops data start n, fun _ => 0)
  if isTimeMasked masks tp then (fun _ => 0, fun _ => 0) else st

/-- One iteration of the reconstruction frame loop: state is the pair
`(reconstructed, norm)` of accumulation buffers.  `start = f * hopSize`,
`timePos = f / numFrames`; the (possibly masked) frame spectrum is inverted
and overlap-added: `reconstructed[start+i] += real[i] * window[i]`,
`norm[start+i] += window[i] * window[i]` for `i < n`. -/
def reconStep (ops : AnalyticOps α) (data : ℕ → α)
    (masks : List (MaskInterval α)) (L n : ℕ) (h : ℤ)
    (st : (ℕ → α) × (ℕ → α)) (f : ℕ) : (ℕ → α) × (ℕ → α) :=
  let start := ((f : ℤ) * h).toNat
  let tp := (f : α) / ((numFrames L n h : ℤ) : α)
  let spec := frameSpectrum ops data masks n start tp
  let inv := (FFT.make ops n).inverse spec
  let w := hanningWindow ops n
  (fun q => if start ≤ q ∧ q < start + n then st.1 q + inv.1 (q - start) * w (q - start) else st.1 q,
   fun q => if start ≤ q ∧ q < start + n then st.2 q + w (q - start) * w (q - start) else st.2 q)

/-- The accumulation buffers `(reconstructed, norm)` after the whole frame
loop of `applyMaskAndReconstruct` (both start as fresh zero arrays of the
input's length). -/
def overlapState (ops : AnalyticOps α) (data : ℕ → α)
    (masks : List (MaskInterval α)) (L n : ℕ) (h : ℤ) : (ℕ → α) × (ℕ → α) :=
  List.foldl (reconStep ops data masks L n h) (fun _ => 0, fun _ => 0)
    (List.range (numFrames L n h).toNat)

/-- The result record of `applyMaskAndReconstruct`: a fresh buffer with the
input's sample count and sample rate. -/
structure ReconResult (α : Type) where
  numSamples : ℕ
  sampleRate : ℕ
  samples : List α

/-- `applyMaskAndReconstruct(ctx, originalBuffer, annotations, windowSize,
hopSize)`: frame loop, then the guarded normalization
`if (norm[i] > 1e-10) reconstructed[i] /= norm[i]`, then a fresh output
buffer of the input's length and sample rate. -/
def applyMaskAndReconstruct (ops : AnalyticOps α) (data : ℕ → α)
    (L sr : ℕ) (masks : List (MaskInterval α)) (n : ℕ) (h : ℤ) : ReconResult α :=
  let st := overlapState ops data masks L n h
  { numSamples := L
    sampleRate := sr
    samples :=
      (List.range L).map (fun i =>
        if (1 / 10 ^ 10 : α) < st.2 i then st.1 i / st.2 i else st.1 i) }

/-! ## Shape lemmas shared by several claims -/

lemma spectrogram_length (ops : AnalyticOps α) [FloorRing α] (data : ℕ → α)
    (L sr n : ℕ) (h : ℤ) (mB : ℕ) :
    (computeSpectrogram ops data L sr n h mB).spectrogram.length =
      (numFrames L n h).toNat := by
  simp only [computeSpectrogram]
  rw [List.length_map, List.length_range]

lemma spectrogram_row_length (ops : AnalyticOps α) [FloorRing α] (data : ℕ → α)
    (L sr n : ℕ) (h : ℤ) (mB : ℕ) :
    ∀ row ∈ (computeSpectrogram ops data L sr n h mB).spectrogram,
      row.length = mB := by
  intro row hrow
  simp only [computeSpectrogram, List.mem_map] at hrow
  obtain ⟨f, -, rfl⟩ := hrow
  simp [melFrame]

lemma times_length (ops : AnalyticOps α) [FloorRing α] (data : ℕ → α)
    (L sr n : ℕ) (h : ℤ) (mB : ℕ) :
    (computeSpectrogram ops data L sr n h mB).times.length =
      (numFrames L n h).toNat := by
  simp only [computeSpectrogram]
  rw [List.length_map, List.length_range]

lemma recon_samples_length (ops : AnalyticOps α) [FloorRing α] (data : ℕ → α)
    (L sr : ℕ) (masks : List (MaskInterval α)) (n : ℕ) (h : ℤ) :
    (applyMaskAndReconstruct ops data L sr masks n h).samples.length = L := by
  simp [applyMaskAndReconstruct]

lemma numFrames_toNat_of_short (L n : ℕ) (h : ℤ) (hL : L < n) (hh : 0 < h) :
    (numFrames L n h).toNat = 0 := by
  apply Int.toNat_of_nonpos
  apply le_of_lt
  have : (((L : ℚ) - (n : ℚ)) / (h : ℚ)) < 0 := by
    apply div_neg_of_neg_of_pos
    · have : (L : ℚ) < (n : ℚ) := by exact_mod_cast hL
      linarith
    · exact_mod_cast hh
  exact_mod_cast Int.floor_lt.mpr (by exact_mod_cast this)

lemma recon_sample_eq (ops : AnalyticOps α) [FloorRing α] (data : ℕ → α)
    (L sr : ℕ) (masks : List (MaskInterval α)) (n : ℕ) (h : ℤ) (i : ℕ)
    (hi : i < L) :
    (applyMaskAndReconstruct ops data L sr masks n h).samples.getD i 0 =
      (if (1 / 10 ^ 10 : α) < (overlapState ops data masks L n h).2 i
       then (overlapState ops data masks L n h).1 i /
              (overlapState ops data masks L n h).2 i
       else (overlapState ops data masks L n h).1 i) := by
  simp [applyMaskAndReconstruct, List.getD_eq_getElem?_getD, List.getElem?_map,
    List.getElem?_range, hi]

/-! ## C2: spectrogram dimensions -/

/-- C2: for every signal length `L`, window size `n`, positive hop `h` and
mel bin count `mB`, the spectrogram has exactly
`(⌊(L - n) / h⌋).toNat` rows — `floor ((L - n) / h)` rows, and zero rows
(with no error) when that floor is zero or negative — and every row has
exactly `mB` columns. -/
theorem c2_spectrogram_shape (ops : AnalyticOps α) [FloorRing α]
    (data : ℕ → α) (L sr n : ℕ) (h : ℤ) (mB : ℕ) (hh : 0 < h) :
    (computeSpectrogram ops data L sr n h mB).spectrogram.length =
      (⌊(((L : ℚ) - (n : ℚ)) / (h : ℚ))⌋).toNat ∧
    ∀ row ∈ (computeSpectrogram ops data L sr n h mB).spectrogram,
      row.length = mB :=
  ⟨spectrogram_length ops data L sr n h mB,
   spectrogram_row_length ops data L sr n h mB⟩

/-- Witness for C2, at the spec's concrete scenario: `sampleRate = 16000`,
`windowSize = 1024`, `hopSize = 256`, `16384` samples, `melBinsCount = 40`
give a `60 × 40` spectrogram. -/
theorem c2_spectrogram_shape_witness :
    (computeSpectrogram qOps (fun _ => 0) 16384 16000 1024 (256 : ℤ) 40).spectrogram.length = 60 ∧
    ∀ row ∈ (computeSpectrogram qOps (fun _ => 0) 16384 16000 1024 (256 : ℤ) 40).spectrogram,
      row.length = 40 := by
  have h := c2_spectrogram_shape qOps (fun _ => 0) 16384 16000 1024 (256 : ℤ) 40
    (by norm_num)
  refine ⟨?_, h.2⟩
  rw [h.1]
  norm_num
  rfl

/-! ## C3: configuration validation (none exists in the code) -/

/-- The bit-reversal increment loop of `forward`
(`while (k <= j) { j -= k; k >>= 1 }; j += k`) translated verbatim, with a
step budget instead of a termination guard: `none` means the loop has not
exited within `fuel` iterations, so `incRevFuel fuel k j = none` for *every*
`fuel` means the JS loop never terminates from the state `(k, j)`. -/
def incRevFuel : ℕ → ℕ → ℕ → Option ℕ
  | 0, _, _ => none
  | fuel + 1, k, j =>
      if k ≤ j then incRevFuel fuel (k / 2) (j - k) else some (j + k)

/-- The values taken by `j` across the outer bit-reversal loop of `forward`
(`j = 0` initially; each outer iteration `i` runs the increment loop with
`k` starting at `n >> 1 = n / 2`; the swaps do not affect `j`):
`bitrevTrace n fuel i` is the value of `j` before outer iteration `i`, or
`none` if some increment loop did not exit within `fuel` iterations. -/
def bitrevTrace (n fuel : ℕ) : ℕ → Option ℕ
  | 0 => some 0
  | i + 1 => (bitrevTrace n fuel i).bind (fun j => incRevFuel fuel (n / 2) j)

lemma incRevFuel_succ (g k j : ℕ) : incRevFuel (g + 1) k j =
    if k ≤ j then incRevFuel g (k / 2) (j - k) else some (j + k) := rfl

/-- Once the increment loop reaches `k = 0` (with `k ≤ j` automatically
true), its state never changes again: the loop runs forever. -/
lemma incRevFuel_zero_k (fuel : ℕ) : ∀ j, incRevFuel fuel 0 j = none := by
  induction fuel with
  | zero => intro j; rfl
  | succ f ih =>
      intro j
      rw [incRevFuel_succ, if_pos (Nat.zero_le j)]
      simpa using ih j

/-- A larger step budget preserves any result the increment loop reaches. -/
lemma incRevFuel_some_mono : ∀ (f1 f2 k j r : ℕ), f1 ≤ f2 →
    incRevFuel f1 k j = some r → incRevFuel f2 k j = some r := by
  intro f1
  induction f1 with
  | zero => intro f2 k j r _ h; simp [incRevFuel] at h
  | succ f ih =>
      intro f2 k j r h12 h
      obtain ⟨f2', rfl⟩ : ∃ f2', f2 = f2' + 1 := ⟨f2 - 1, by omega⟩
      rw [incRevFuel_succ] at h ⊢
      by_cases hc : k ≤ j
      · rw [if_pos hc] at h ⊢
        exact ih f2' (k / 2) (j - k) r (by omega) h
      · rwa [if_neg hc] at h ⊢

/-- The increment loop from the state `(k, j) = (6, 10)` — reached at outer
iteration `i = 7` for `n = 12` — never exits: `(6,10) → (3,4) → (1,1) →
(0,0)`, and `(0,0)` steps to itself forever. -/
lemma incRevFuel_six_ten (fuel : ℕ) : incRevFuel fuel 6 10 = none := by
  match fuel with
  | 0 => rfl
  | 1 => rfl
  | 2 => rfl
  | (f + 3) =>
      rw [show f + 3 = (f + 2) + 1 from rfl, incRevFuel_succ,
        if_pos (by norm_num)]
      rw [show (6 : ℕ) / 2 = 3 from rfl, show (10 : ℕ) - 6 = 4 from rfl]
      rw [show f + 2 = (f + 1) + 1 from rfl, incRevFuel_succ,
        if_pos (by norm_num)]
      rw [show (3 : ℕ) / 2 = 1 from rfl, show (4 : ℕ) - 3 = 1 from rfl]
      rw [incRevFuel_succ, if_pos (by norm_num)]
      rw [show (1 : ℕ) / 2 = 0 from rfl, show (1 : ℕ) - 1 = 0 from rfl]
      exact incRevFuel_zero_k f 0

/-- When the trace does terminate, its value does not depend on the budget. -/
lemma bitrevTrace_det (n : ℕ) : ∀ (i f1 f2 j1 j2 : ℕ),
    bitrevTrace n f1 i = some j1 → bitrevTrace n f2 i = some j2 →
    j1 = j2 := by
  intro i
  induction i with
  | zero =>
      intro f1 f2 j1 j2 h1 h2
      simp only [bitrevTrace, Option.some.injEq] at h1 h2
      omega
  | succ i ih =>
      intro f1 f2 j1 j2 h1 h2
      simp only [bitrevTrace] at h1 h2
      obtain ⟨a1, ha1, hb1⟩ := Option.bind_eq_some.mp h1
      obtain ⟨a2, ha2, hb2⟩ := Option.bind_eq_some.mp h2
      have ha : a1 = a2 := ih f1 f2 a1 a2 ha1 ha2
      subst ha
      have h1' := incRevFuel_some_mono f1 (max f1 f2) (n / 2) a1 j1
        (le_max_left _ _) hb1
      have h2' := incRevFuel_some_mono f2 (max f1 f2) (n / 2) a1 j2
        (le_max_right _ _) hb2
      rw [h1'] at h2'
      exact Option.some.inj h2'

/-- At `n = 12` the bit-reversal loop of `forward` hangs: the first seven
increments produce `j = 6, 3, 9, 1, 7, 4, 10`, and the eighth (outer
iteration `i = 7`, from `j = 10`) never exits, whatever the step budget. -/
lemma bitrevTrace_twelve (fuel : ℕ) : bitrevTrace 12 fuel 8 = none := by
  have h8 : bitrevTrace 12 fuel 8 =
      (bitrevTrace 12 fuel 7).bind (fun j => incRevFuel fuel (12 / 2) j) :=
    rfl
  rw [h8]
  rcases h7 : bitrevTrace 12 fuel 7 with _ | j
  · rfl
  · have hj : j = 10 := bitrevTrace_det 12 7 fuel 4 j 10 h7 (by decide)
    subst hj
    show incRevFuel fuel 6 10 = none
    exact incRevFuel_six_ten fuel

/-- C3 (code bug evidence): the pipeline performs no configuration
validation, and bad configurations silently misbehave instead of being
rejected.  At `windowSize = 12` (not a power of two) the FFT plan is built
without complaint (`Math.log2 12` truncated to `3` stages) and the forward
pass then hangs: the bit-reversal increment loop reaches `k = 0` with
`k ≤ j` still true at outer iteration `i = 7` and never exits, for any step
budget.  At `hopSize = -512` the reconstruction silently completes with a
full-length untouched output and zero frames processed.  Nothing is rejected
at pipeline construction, contradicting the claim. -/
theorem c3_no_config_rejection :
    (FFT.make qOps 12).m = 3 ∧
    (∀ fuel : ℕ, bitrevTrace 12 fuel 8 = none) ∧
    (applyMaskAndReconstruct qOps (fun _ => 0) 1036 16000 []
        12 (-512 : ℤ)).samples.length = 1036 :=
  ⟨by simp [FFT.make, Nat.log2], bitrevTrace_twelve,
    recon_samples_length _ _ _ _ _ _ _⟩

/-! ## C6: degenerate input (signal shorter than the window) -/

/-- C6: for every signal shorter than the window (and positive hop), neither
pipeline errs: the spectrogram and its time axis are empty, and the
reconstruction returns a signal of the input's length with every sample `0`
(no frame was processed). -/
theorem c6_short_signal_degenerate (ops : AnalyticOps α) [FloorRing α]
    (data : ℕ → α) (L sr : ℕ) (masks : List (MaskInterval α)) (n : ℕ)
    (h : ℤ) (mB : ℕ) (hL : L < n) (hh : 0 < h) :
    (computeSpectrogram ops data L sr n h mB).spectrogram = [] ∧
    (computeSpectrogram ops data L sr n h mB).times = [] ∧
    (applyMaskAndReconstruct ops data L sr masks n h).samples.length = L ∧
    ∀ x ∈ (applyMaskAndReconstruct ops data L sr masks n h).samples, x = 0 := by
  have h0 : (numFrames L n h).toNat = 0 := numFrames_toNat_of_short L n h hL hh
  refine ⟨?_, ?_, recon_samples_length ops data L sr masks n h, ?_⟩
  · apply List.eq_nil_of_length_eq_zero
    rw [spectrogram_length, h0]
  · apply List.eq_nil_of_length_eq_zero
    rw [times_length, h0]
  · intro x hx
    simp only [applyMaskAndReconstruct, overlapState, h0, List.range_zero,
      List.foldl_nil, List.mem_map] at hx
    obtain ⟨i, -, rfl⟩ := hx
    simp

/-- Witness for C6: a 3-sample signal against a 4-sample window. -/
theorem c6_short_signal_degenerate_witness :
    (computeSpectrogram qOps (fun _ => 7) 3 5 4 (2 : ℤ) 2).spectrogram = [] ∧
    (computeSpectrogram qOps (fun _ => 7) 3 5 4 (2 : ℤ) 2).times = [] ∧
    (applyMaskAndReconstruct qOps (fun _ => 7) 3 5 [] 4 (2 : ℤ)).samples.length = 3 ∧
    ∀ x ∈ (applyMaskAndReconstruct qOps (fun _ => 7) 3 5 [] 4 (2 : ℤ)).samples, x = 0 :=
  c6_short_signal_degenerate qOps (fun _ => 7) 3 5 [] 4 2 2 (by norm_num) (by norm_num)

/-! ## C7: guarded normalization -/

/-- C7: every output sample of `applyMaskAndReconstruct` is the accumulated
overlap-add value divided by the accumulated window energy exactly when that
energy exceeds `1e-10`, and is left at the raw accumulated value otherwise —
so the normalization never divides by an accumulator that is at or below
`1e-10`. -/
theorem c7_normalization_guard (ops : AnalyticOps α) [FloorRing α]
    (data : ℕ → α) (L sr : ℕ) (masks : List (MaskInterval α)) (n : ℕ)
    (h : ℤ) (i : ℕ) (hi : i < L) :
    (applyMaskAndReconstruct ops data L sr masks n h).samples.getD i 0 =
      (if (1 / 10 ^ 10 : α) < (overlapState ops data masks L n h).2 i
       then (overlapState ops data masks L n h).1 i /
              (overlapState ops data masks L n h).2 i
       else (overlapState ops data masks L n h).1 i) :=
  recon_sample_eq ops data L sr masks n h i hi

/-- Witness for C7 at a concrete configuration. -/
theorem c7_normalization_guard_witness :
    (applyMaskAndReconstruct qOps (fun _ => 3) 4 10 [] 2 (1 : ℤ)).samples.getD 1 0 =
      (if (1 / 10 ^ 10 : ℚ) < (overlapState qOps (fun _ => 3) [] 4 2 1).2 1
       then (overlapState qOps (fun _ => 3) [] 4 2 1).1 1 /
              (overlapState qOps (fun _ => 3) [] 4 2 1).2 1
       else (overlapState qOps (fun _ => 3) [] 4 2 1).1 1) :=
  c7_normalization_guard qOps (fun _ => 3) 4 10 [] 2 1 1 (by norm_num)

/-! ## C8: output shape and read-only input -/

/-- C8: for every input and mask list the reconstruction is a fresh signal
whose sample count and sample rate equal the input's.  (The read-only part
of the claim holds by construction of the embedding: the source's writes all
target the freshly allocated `frameReal`/`frameImag`/`reconstructed`/`norm`/
`newBuffer` buffers, which the embedding threads as explicit state, while
`data` is only ever read.) -/
theorem c8_recon_preserves_shape (ops : AnalyticOps α) [FloorRing α]
    (data : ℕ → α) (L sr : ℕ) (masks : List (MaskInterval α)) (n : ℕ)
    (h : ℤ) :
    (applyMaskAndReconstruct ops data L sr masks n h).numSamples = L ∧
    (applyMaskAndReconstruct ops data L sr masks n h).sampleRate = sr ∧
    (applyMaskAndReconstruct ops data L sr masks n h).samples.length = L :=
  ⟨rfl, rfl, recon_samples_length ops data L sr masks n h⟩

/-! ## C10: the masking predicate -/

/-- C10: frame `f` of the reconstruction is silenced (both windowed buffers
cleared to zero before the inverse FFT) exactly when some mask interval
satisfies `start ≤ f/numFrames ≤ start + duration`, both endpoints
inclusive; the comparison is the plain numeric one — the intervals are
quantified over all values, with no clamping or validation to `[0, 1]`. -/
theorem c10_masking_predicate (ops : AnalyticOps α) [FloorRing α]
    (data : ℕ → α) (masks : List (MaskInterval α)) (L n : ℕ) (h : ℤ)
    (f : ℕ) :
    (isTimeMasked masks ((f : α) / ((numFrames L n h : ℤ) : α)) = true ↔
      ∃ a ∈ masks, a.x ≤ (f : α) / ((numFrames L n h : ℤ) : α) ∧
        (f : α) / ((numFrames L n h : ℤ) : α) ≤ a.x + a.width) ∧
    frameSpectrum ops data masks n (((f : ℤ) * h).toNat)
        ((f : α) / ((numFrames L n h : ℤ) : α)) =
      (if isTimeMasked masks ((f : α) / ((numFrames L n h : ℤ) : α))
       then ((fun _ => 0), (fun _ => 0))
       else (FFT.make ops n).forward
         (frameRe ops data (((f : ℤ) * h).toNat) n, fun _ => 0)) := by
  constructor
  · simp [isTimeMasked, List.any_eq_true]
  · rfl

/-! ## C5: the two frame-time normalizations -/

lemma numFrames_ge_two_facts (L n : ℕ) (h : ℤ) (hh : 0 < h)
    (hF : 2 ≤ numFrames L n h) : 2 * h + (n : ℤ) ≤ (L : ℤ) ∧ 0 < L := by
  have h1 : (2 : ℚ) ≤ ((L : ℚ) - (n : ℚ)) / (h : ℚ) := by
    exact_mod_cast Int.le_floor.mp hF
  have hq : (0 : ℚ) < (h : ℚ) := by exact_mod_cast hh
  rw [le_div_iff₀ hq] at h1
  have h2q : 2 * (h : ℚ) + (n : ℚ) ≤ (L : ℚ) := by linarith
  have h2 : 2 * (h : ℤ) + (n : ℤ) ≤ (L : ℤ) := by exact_mod_cast h2q
  refine ⟨h2, ?_⟩
  have : (0 : ℤ) < (L : ℤ) := by linarith
  exact_mod_cast this

/-- C5: the Masked Reconstructor positions frame `f` at `f / numFrames` while
the Spectrogram Builder's time axis places it at `f·hopSize/sampleRate`; as
fractions of the total duration `L/sampleRate` the two coincide (for every
frame of a spectrogram with at least two frames) exactly when
`hopSize · numFrames = signalLength`, and otherwise some mask interval
contains a frame's reconstructor position but not its spectrogram-axis
position. -/
theorem c5_time_axis_mismatch (ops : AnalyticOps α) [FloorRing α]
    (data : ℕ → α) (L sr n : ℕ) (h : ℤ) (mB : ℕ) (hh : 0 < h) (hsr : 0 < sr)
    (hF : 2 ≤ numFrames L n h) :
    (∀ f : ℕ, (f : ℤ) < numFrames L n h →
        (computeSpectrogram ops data L sr n h mB).times.getD f 0 =
          (f : α) * (h : α) / (sr : α)) ∧
    ((∀ f : ℕ, (f : ℤ) < numFrames L n h →
        (f : α) / ((numFrames L n h : ℤ) : α) =
          ((f : α) * (h : α) / (sr : α)) / ((L : α) / (sr : α))) ↔
      h * numFrames L n h = (L : ℤ)) ∧
    (h * numFrames L n h ≠ (L : ℤ) →
      ∃ (a : MaskInterval α) (f : ℕ), (f : ℤ) < numFrames L n h ∧
        isTimeMasked [a] ((f : α) / ((numFrames L n h : ℤ) : α)) = true ∧
        isTimeMasked [a] (((f : α) * (h : α) / (sr : α)) / ((L : α) / (sr : α))) = false) := by
  obtain ⟨hLn, hLpos⟩ := numFrames_ge_two_facts L n h hh hF
  set nF : ℤ := numFrames L n h with hnF
  have hnF2 : (2 : ℤ) ≤ nF := hF
  have hnFα : (2 : α) ≤ ((nF : ℤ) : α) := by exact_mod_cast hnF2
  have hnF0 : ((nF : ℤ) : α) ≠ 0 := by linarith
  have hsrα : (0 : α) < (sr : α) := by exact_mod_cast hsr
  have hLα : (0 : α) < (L : α) := by exact_mod_cast hLpos
  have hhα : (0 : α) < (h : α) := by exact_mod_cast hh
  have hsr0 : (sr : α) ≠ 0 := ne_of_gt hsrα
  have hL0 : (L : α) ≠ 0 := ne_of_gt hLα
  have hh0 : (h : α) ≠ 0 := ne_of_gt hhα
  refine ⟨?_, ?_, ?_⟩
  · intro f hf
    have hf' : f < nF.toNat := Int.lt_toNat.mpr hf
    simp only [computeSpectrogram]
    rw [List.getD_eq_getElem?_getD, List.getElem?_map, List.getElem?_range hf']
    rfl
  · constructor
    · intro hall
      have h1 := hall 1 (by omega)
      push_cast at h1
      rw [div_eq_div_iff hnF0 (div_ne_zero hL0 hsr0)] at h1
      have hLeq : (L : α) = (h : α) * ((nF : ℤ) : α) := by
        field_simp at h1
        linarith
      exact_mod_cast hLeq.symm
    · intro hEq f hf
      have hEqα : (h : α) * ((nF : ℤ) : α) = (L : α) := by exact_mod_cast hEq
      have e1 : ((f : α) * (h : α) / (sr : α)) / ((L : α) / (sr : α)) =
          (f : α) * (h : α) / (L : α) := by
        field_simp
      rw [e1, ← hEqα, mul_comm (f : α) ((h : α)), mul_div_mul_left _ _ hh0]
  · intro hNe
    refine ⟨⟨(1 : α) / ((nF : ℤ) : α), 0⟩, 1, by omega, ?_, ?_⟩
    · simp [isTimeMasked]
    · have hv : ((1 : ℕ) : α) * (h : α) / (sr : α) / ((L : α) / (sr : α)) =
          (h : α) / (L : α) := by
        field_simp
      rw [hv]
      simp only [isTimeMasked, List.any_cons, List.any_nil, Bool.or_false,
        decide_eq_false_iff_not]
      rintro ⟨ha1, ha2⟩
      rw [add_zero] at ha2
      have heq : (1 : α) / ((nF : ℤ) : α) = (h : α) / (L : α) :=
        le_antisymm ha1 ha2
      apply hNe
      rw [div_eq_div_iff hnF0 hL0] at heq
      have : (h : α) * ((nF : ℤ) : α) = (L : α) := by linarith
      exact_mod_cast this

/-- Witness for C5 at `L = 9`, `n = 4`, `h = 2`, `sr = 3` (two frames,
`h·numFrames = 4 ≠ 9`). -/
theorem c5_time_axis_mismatch_witness :
    (∀ f : ℕ, (f : ℤ) < numFrames 9 4 2 →
        (computeSpectrogram qOps (fun _ => 0) 9 3 4 2 1).times.getD f 0 =
          (f : ℚ) * ((2 : ℤ) : ℚ) / ((3 : ℕ) : ℚ)) ∧
    ((∀ f : ℕ, (f : ℤ) < numFrames 9 4 2 →
        (f : ℚ) / ((numFrames 9 4 2 : ℤ) : ℚ) =
          ((f : ℚ) * ((2 : ℤ) : ℚ) / ((3 : ℕ) : ℚ)) / (((9 : ℕ) : ℚ) / ((3 : ℕ) : ℚ))) ↔
      2 * numFrames 9 4 2 = ((9 : ℕ) : ℤ)) ∧
    (2 * numFrames 9 4 2 ≠ ((9 : ℕ) : ℤ) →
      ∃ (a : MaskInterval ℚ) (f : ℕ), (f : ℤ) < numFrames 9 4 2 ∧
        isTimeMasked [a] ((f : ℚ) / ((numFrames 9 4 2 : ℤ) : ℚ)) = true ∧
        isTimeMasked [a] (((f : ℚ) * ((2 : ℤ) : ℚ) / ((3 : ℕ) : ℚ)) /
          (((9 : ℕ) : ℚ) / ((3 : ℕ) : ℚ))) = false) :=
  c5_time_axis_mismatch qOps (fun _ => 0) 9 3 4 2 1 (by norm_num) (by norm_num)
    (by norm_num [numFrames, Int.floor_eq_iff])

/-! ## C1: correctness of the FFT round trip

The proof identifies `FFT.forward` (with the real trigonometric tables of
the constructor) with the discrete Fourier transform
`X_q = ∑_u x_u · exp(-2πiqu/n)` and derives
`inverse ∘ forward = id` from the DFT inversion formula.  First: the
arithmetic of bit reversal. -/

/-- `bitRev m i` reverses the low `m` bits of `i` (higher bits are
discarded). -/
def bitRev : ℕ → ℕ → ℕ
  | 0, _ => 0
  | m + 1, i => i % 2 * 2 ^ m + bitRev m (i / 2)

lemma bitRev_lt (m : ℕ) : ∀ i, bitRev m i < 2 ^ m := by
  induction m with
  | zero => intro i; simp [bitRev]
  | succ m ih =>
      intro i
      have h1 : i % 2 ≤ 1 := by omega
      have h2 := ih (i / 2)
      have : bitRev (m + 1) i = i % 2 * 2 ^ m + bitRev m (i / 2) := rfl
      rw [this, pow_succ]
      nlinarith

lemma bitRev_zero (m : ℕ) : bitRev m 0 = 0 := by
  induction m with
  | zero => rfl
  | succ m ih => simp [bitRev, ih]

lemma bitRev_high (m : ℕ) : ∀ r b, r < 2 ^ m → b ≤ 1 →
    bitRev (m + 1) (r + b * 2 ^ m) = b + 2 * bitRev m r := by
  induction m with
  | zero =>
      intro r b hr hb
      interval_cases r
      interval_cases b <;> simp [bitRev]
  | succ m ih =>
      intro r b hr hb
      have e1 : (r + b * 2 ^ (m + 1)) % 2 = r % 2 := by
        have : b * 2 ^ (m + 1) = b * 2 ^ m * 2 := by ring
        omega
      have e2 : (r + b * 2 ^ (m + 1)) / 2 = r / 2 + b * 2 ^ m := by
        have : b * 2 ^ (m + 1) = b * 2 ^ m * 2 := by ring
        omega
      have e3 : r / 2 < 2 ^ m := by
        have : 2 ^ (m + 1) = 2 ^ m * 2 := by ring
        omega
      calc bitRev (m + 2) (r + b * 2 ^ (m + 1))
          = (r + b * 2 ^ (m + 1)) % 2 * 2 ^ (m + 1) +
              bitRev (m + 1) ((r + b * 2 ^ (m + 1)) / 2) := rfl
        _ = r % 2 * 2 ^ (m + 1) + bitRev (m + 1) (r / 2 + b * 2 ^ m) := by
              rw [e1, e2]
        _ = r % 2 * 2 ^ (m + 1) + (b + 2 * bitRev m (r / 2)) := by
              rw [ih (r / 2) b e3 hb]
        _ = b + 2 * (r % 2 * 2 ^ m + bitRev m (r / 2)) := by ring
        _ = b + 2 * bitRev (m + 1) r := rfl

lemma bitRev_bitRev (m : ℕ) : ∀ i, i < 2 ^ m → bitRev m (bitRev m i) = i := by
  induction m with
  | zero => intro i hi; interval_cases i; rfl
  | succ m ih =>
      intro i hi
      have h2 : i / 2 < 2 ^ m := by
        have : 2 ^ (m + 1) = 2 ^ m * 2 := by ring
        omega
      have e1 : bitRev (m + 1) i = bitRev m (i / 2) + i % 2 * 2 ^ m := by
        show i % 2 * 2 ^ m + bitRev m (i / 2) = _
        ring
      rw [e1, bitRev_high m (bitRev m (i / 2)) (i % 2) (bitRev_lt m (i / 2)) (by omega),
        ih (i / 2) h2]
      omega

lemma incRev_eq (k j : ℕ) :
    FFT.incRev k j =
      if 0 < k ∧ k ≤ j then FFT.incRev (k / 2) (j - k) else j + k := by
  rw [FFT.incRev]
  by_cases h : 0 < k ∧ k ≤ j <;> simp [h]

/-- The butterfly increment really increments a bit-reversed counter. -/
lemma incRev_bitRev : ∀ (m i : ℕ), i + 1 < 2 ^ (m + 1) →
    FFT.incRev (2 ^ m) (bitRev (m + 1) i) = bitRev (m + 1) (i + 1) := by
  intro m
  induction m with
  | zero =>
      intro i hi
      have : i = 0 := by omega
      subst this
      rw [incRev_eq]
      norm_num [bitRev]
  | succ m ih =>
      intro i hi
      have hrev := bitRev_lt (m + 1) (i / 2)
      rcases Nat.even_or_odd i with he | ho
      · -- even `i`: the top bit of the reversed counter is clear; set it.
        have hmod : i % 2 = 0 := Nat.even_iff.mp he
        have e1 : bitRev (m + 2) i = bitRev (m + 1) (i / 2) := by
          show i % 2 * 2 ^ (m + 1) + bitRev m.succ (i / 2) = _
          rw [hmod]; ring
        have e2 : bitRev (m + 2) (i + 1) =
            2 ^ (m + 1) + bitRev (m + 1) (i / 2) := by
          show (i + 1) % 2 * 2 ^ (m + 1) + bitRev m.succ ((i + 1) / 2) = _
          have : (i + 1) % 2 = 1 := by omega
          have e3 : (i + 1) / 2 = i / 2 := by omega
          rw [this, e3]; ring
        rw [e1, e2, incRev_eq]
        have : ¬(0 < 2 ^ (m + 1) ∧ 2 ^ (m + 1) ≤ bitRev (m + 1) (i / 2)) := by
          push_neg
          intro
          omega
        rw [if_neg this]
        ring
  -- odd `i`: strip the set top bit and recurse on the remaining bits.
      · have hmod : i % 2 = 1 := Nat.odd_iff.mp ho
        have e1 : bitRev (m + 2) i = bitRev (m + 1) (i / 2) + 2 ^ (m + 1) := by
          show i % 2 * 2 ^ (m + 1) + bitRev m.succ (i / 2) = _
          rw [hmod]; ring
        have e2 : bitRev (m + 2) (i + 1) = bitRev (m + 1) (i / 2 + 1) := by
          show (i + 1) % 2 * 2 ^ (m + 1) + bitRev m.succ ((i + 1) / 2) = _
          have h1 : (i + 1) % 2 = 0 := by omega
          have h2 : (i + 1) / 2 = i / 2 + 1 := by omega
          rw [h1, h2]; ring
        have hlt : i / 2 + 1 < 2 ^ (m + 1) := by
          have : 2 ^ (m + 2) = 2 ^ (m + 1) * 2 := by ring
          omega
        rw [e1, e2, incRev_eq]
        have hcond : 0 < 2 ^ (m + 1) ∧
            2 ^ (m + 1) ≤ bitRev (m + 1) (i / 2) + 2 ^ (m + 1) := by
          constructor
          · positivity
          · omega
        rw [if_pos hcond]
        have hhalf : 2 ^ (m + 1) / 2 = 2 ^ m := by
          rw [pow_succ]
          omega
        have hsub : bitRev (m + 1) (i / 2) + 2 ^ (m + 1) - 2 ^ (m + 1) =
            bitRev (m + 1) (i / 2) := by omega
        rw [hhalf, hsub, ih (i / 2) hlt]

lemma swapAt_apply (a : ℕ → α) (i j q : ℕ) (hij : i ≠ j) :
    FFT.swapAt a i j q = if q = i then a j else if q = j then a i else a q := by
  simp only [FFT.swapAt, Function.update_apply]
  rcases eq_or_ne q i with rfl | hqi
  · simp [hij]
  · simp [hqi]

/-- The partially bit-reversed array after the first `i` iterations of the
permutation loop: position `p` holds `a (bitRev m p)` once the pair
`{p, bitRev m p}` has been visited (i.e. once its smaller element is `< i`),
and the original value otherwise. -/
def brInv (m i : ℕ) (a : ℕ → α) : ℕ → α :=
  fun p => if (p < i ∨ bitRev m p < i) ∧ p < 2 ^ m then a (bitRev m p) else a p

lemma bitrevFold (m : ℕ) (re im : ℕ → α) :
    ∀ i, i + 1 ≤ 2 ^ m →
    List.foldl (FFT.bitrevStep (2 ^ m)) (re, im, 0) (List.range i) =
      (brInv m i re, brInv m i im, bitRev m i) := by
  intro i
  induction i with
  | zero =>
      intro _
      rw [List.range_zero, List.foldl_nil, bitRev_zero]
      have h1 : brInv m 0 re = re := by
        funext p; simp [brInv]
      have h2 : brInv m 0 im = im := by
        funext p; simp [brInv]
      rw [h1, h2]
  | succ i ih =>
      intro hi
      have hi' : i + 1 ≤ 2 ^ m := by omega
      have hilt : i < 2 ^ m := by omega
      rw [List.range_succ, List.foldl_append, List.foldl_cons, List.foldl_nil,
        ih hi']
      have hm1 : ∃ m', m = m' + 1 := by
        rcases Nat.eq_zero_or_pos m with rfl | hm
        · exfalso; rw [pow_zero] at hi; omega
        · exact ⟨m - 1, by omega⟩
      obtain ⟨m', rfl⟩ := hm1
      have hjnew : FFT.incRev (2 ^ (m' + 1) / 2) (bitRev (m' + 1) i) =
          bitRev (m' + 1) (i + 1) := by
        have hhalf : 2 ^ (m' + 1) / 2 = 2 ^ m' := by
          rw [pow_succ]; omega
        rw [hhalf]
        exact incRev_bitRev m' i (by omega)
      set mm := m' + 1 with hmm
      have hrevlt : bitRev mm i < 2 ^ mm := bitRev_lt mm i
      have hrevrev : bitRev mm (bitRev mm i) = i := bitRev_bitRev mm i hilt
      by_cases hswap : i < bitRev mm i
      · -- a swap occurs at `(i, bitRev mm i)`
        have hne : i ≠ bitRev mm i := by omega
        have key : ∀ a : ℕ → α,
            FFT.swapAt (brInv mm i a) i (bitRev mm i) = brInv mm (i + 1) a := by
          intro a
          funext p
          rw [swapAt_apply _ _ _ _ hne]
          rcases eq_or_ne p i with rfl | hpi
          · rw [if_pos rfl]
            simp only [brInv, hrevrev]
            rw [if_neg (by omega), if_pos ⟨Or.inl (by omega), hilt⟩]
          · rw [if_neg hpi]
            rcases eq_or_ne p (bitRev mm i) with rfl | hpr
            · rw [if_pos rfl]
              simp only [brInv, hrevrev]
              rw [if_neg (by omega), if_pos ⟨Or.inr (by omega), hrevlt⟩]
            · rw [if_neg hpr]
              simp only [brInv]
              by_cases hp : p < 2 ^ mm
              · have hrevp : bitRev mm (bitRev mm p) = p := bitRev_bitRev mm p hp
                have hnotflip : bitRev mm p ≠ i := by
                  intro hcontra
                  apply hpr
                  rw [← hcontra, hrevp]
                by_cases h1 : ((p < i ∨ bitRev mm p < i) ∧ p < 2 ^ mm)
                · rw [if_pos h1, if_pos ⟨by omega, h1.2⟩]
                · have hc' : ¬((p < i + 1 ∨ bitRev mm p < i + 1) ∧ p < 2 ^ mm) := by
                    intro hc
                    exact h1 ⟨by omega, hc.2⟩
                  rw [if_neg h1, if_neg hc']
              · rw [if_neg (fun hc => hp hc.2), if_neg (fun hc => hp hc.2)]
        simp only [FFT.bitrevStep, if_pos hswap]
        rw [hjnew, key re, key im]
      · -- no swap: every pair with minimum `i` is a fixed point here
        simp only [FFT.bitrevStep, if_neg hswap]
        rw [hjnew]
        have hstable : ∀ a : ℕ → α, brInv mm i a = brInv mm (i + 1) a := by
          intro a
          funext p
          simp only [brInv]
          by_cases hp : p < 2 ^ mm
          · have hrevp : bitRev mm (bitRev mm p) = p := bitRev_bitRev mm p hp
            by_cases h1 : ((p < i ∨ bitRev mm p < i) ∧ p < 2 ^ mm)
            · rw [if_pos h1, if_pos ⟨by omega, h1.2⟩]
            · by_cases h2 : ((p < i + 1 ∨ bitRev mm p < i + 1) ∧ p < 2 ^ mm)
              · -- the pair's minimum is exactly `i`, so it is a fixed point
                have hfix : bitRev mm p = p := by
                  have hni : ¬(p < i ∨ bitRev mm p < i) := fun hc => h1 ⟨hc, hp⟩
                  push_neg at hni
                  rcases h2 with ⟨h2a, -⟩
                  rcases h2a with ha | ha
                  · have hpe : p = i := by omega
                    subst hpe
                    omega
                  · have hri : bitRev mm p = i := by omega
                    rw [← hri] at hswap
                    rw [hrevp] at hswap
                    omega
                rw [if_neg h1, if_pos h2, hfix]
              · rw [if_neg h1, if_neg h2]
          · rw [if_neg (fun hc => hp hc.2), if_neg (fun hc => hp hc.2)]
        rw [← hstable re, ← hstable im]

/-! ### Complex view of the stage loops -/

/-- Complex view of a real/imaginary buffer pair. -/
def zview (st : (ℕ → ℝ) × (ℕ → ℝ)) : ℕ → ℂ :=
  fun p => ⟨st.1 p, st.2 p⟩

/-- The butterfly in complex form: one twiddle `w`, positions `k`, `k + M2`. -/
def cbutterfly (w : ℂ) (M2 : ℕ) (Z : ℕ → ℂ) (k : ℕ) : ℕ → ℂ :=
  Function.update (Function.update Z (k + M2) (Z k - w * Z (k + M2))) k
    (Z k + w * Z (k + M2))

lemma zview_butterfly (cosT sinT : ℕ → ℝ) (n M M2 j : ℕ) (hM2 : 0 < M2)
    (st : (ℕ → ℝ) × (ℕ → ℝ)) (k : ℕ) :
    zview (FFT.butterfly cosT sinT n M M2 j st k) =
      cbutterfly ⟨cosT (j * (n / M)), -sinT (j * (n / M))⟩ M2 (zview st) k := by
  funext q
  have hk : k ≠ k + M2 := by omega
  simp only [FFT.butterfly, cbutterfly, zview, Function.update_apply, if_neg hk]
  split_ifs with h1 h2 <;>
    simp only [Complex.ext_iff, Complex.add_re, Complex.add_im, Complex.sub_re,
      Complex.sub_im, Complex.mul_re, Complex.mul_im, Complex.neg_re,
      Complex.neg_im] <;>
    constructor <;> ring

/-- One stage of the forward transform, viewed on complex buffers. -/
def cstageStep (cosT sinT : ℕ → ℝ) (n : ℕ) (Z : ℕ → ℂ) (s : ℕ) : ℕ → ℂ :=
  List.foldl
    (fun Z2 j => List.foldl
      (cbutterfly ⟨cosT (j * (n / 2 ^ s)), -sinT (j * (n / 2 ^ s))⟩ (2 ^ s / 2)) Z2
      (FFT.iterList j (2 ^ s) n))
    Z (List.range (2 ^ s / 2))

lemma zview_foldl {β : Type} (f : (ℕ → ℝ) × (ℕ → ℝ) → β → (ℕ → ℝ) × (ℕ → ℝ))
    (g : (ℕ → ℂ) → β → (ℕ → ℂ))
    (hfg : ∀ st b, zview (f st b) = g (zview st) b) :
    ∀ (l : List β) (st), zview (List.foldl f st l) = List.foldl g (zview st) l := by
  intro l
  induction l with
  | nil => intro st; rfl
  | cons b t ih =>
      intro st
      rw [List.foldl_cons, List.foldl_cons, ih, hfg]

lemma zview_stageStep (p : FFT ℝ) (st : (ℕ → ℝ) × (ℕ → ℝ)) (s : ℕ)
    (hs : 1 ≤ s) :
    zview (FFT.stageStep p st s) = cstageStep p.cosT p.sinT p.n (zview st) s := by
  have hM2 : 0 < 2 ^ s / 2 := by
    have : (2 : ℕ) ^ 1 ≤ 2 ^ s := Nat.pow_le_pow_right (by omega) hs
    have h2 : (2 : ℕ) ^ 1 = 2 := by norm_num
    omega
  simp only [FFT.stageStep, cstageStep]
  apply zview_foldl
  intro st2 j
  apply zview_foldl
  intro st3 k
  exact zview_butterfly p.cosT p.sinT p.n (2 ^ s) (2 ^ s / 2) j hM2 st3 k

/-! ### The stage loop as a parallel gather -/

lemma iterList_eq (j M n : ℕ) (hM : 0 < M) (hj : j < M) (hdvd : M ∣ n) :
    FFT.iterList j M n = (List.range (n / M)).map (fun b => j + b * M) := by
  unfold FFT.iterList
  congr 1
  obtain ⟨q, rfl⟩ := hdvd
  rcases Nat.eq_zero_or_pos q with rfl | hq
  · rw [Nat.mul_zero, Nat.zero_div, Nat.div_eq_of_lt (by omega)]
  · have hMq : M ≤ M * q := Nat.le_mul_of_pos_right M hq
    have h3 : M * q - j + M - 1 = (M - 1 - j) + M * q := by omega
    rw [h3, Nat.add_mul_div_left _ _ hM, Nat.div_eq_of_lt (by omega),
      Nat.mul_div_cancel_left q hM, Nat.zero_add]

lemma div_lt_div_iff_dvd (p n M : ℕ) (hM : 0 < M) (hdvd : M ∣ n) :
    p / M < n / M ↔ p < n := by
  constructor
  · intro hlt
    by_contra hc
    push_neg at hc
    have h2 : n / M ≤ p / M := Nat.div_le_div_right hc
    omega
  · exact Nat.div_lt_div_of_lt_of_dvd hdvd

/-- The array contents after the inner `k`-loop of one stage has processed
blocks `0, …, B-1` for a fixed twiddle offset `j`. -/
def innerAcc (w : ℂ) (M2 j B : ℕ) (Z : ℕ → ℂ) : ℕ → ℂ :=
  fun p =>
    if p % (2 * M2) = j ∧ p / (2 * M2) < B then Z p + w * Z (p + M2)
    else if p % (2 * M2) = j + M2 ∧ p / (2 * M2) < B then Z (p - M2) - w * Z p
    else Z p

lemma inner_fold (w : ℂ) (M2 j : ℕ) (hM2 : 0 < M2) (hj : j < M2) (Z : ℕ → ℂ) :
    ∀ B, List.foldl (cbutterfly w M2) Z
        ((List.range B).map (fun b => j + b * (2 * M2))) =
      innerAcc w M2 j B Z := by
  intro B
  induction B with
  | zero =>
      funext p
      simp [innerAcc]
  | succ B ih =>
      rw [List.range_succ, List.map_append, List.foldl_append, ih]
      simp only [List.map_cons, List.map_nil, List.foldl_cons, List.foldl_nil]
      have hM : 0 < 2 * M2 := by omega
      have hkmod : (j + B * (2 * M2)) % (2 * M2) = j := by
        rw [Nat.add_mul_mod_self_right, Nat.mod_eq_of_lt (by omega)]
      have hkdiv : (j + B * (2 * M2)) / (2 * M2) = B := by
        rw [Nat.add_mul_div_right _ _ hM, Nat.div_eq_of_lt (by omega), Nat.zero_add]
      have hk2eq : j + B * (2 * M2) + M2 = (j + M2) + B * (2 * M2) := by omega
      have hk2mod : (j + B * (2 * M2) + M2) % (2 * M2) = j + M2 := by
        rw [hk2eq, Nat.add_mul_mod_self_right, Nat.mod_eq_of_lt (by omega)]
      have hk2div : (j + B * (2 * M2) + M2) / (2 * M2) = B := by
        rw [hk2eq, Nat.add_mul_div_right _ _ hM, Nat.div_eq_of_lt (by omega),
          Nat.zero_add]
      have hreadk : innerAcc w M2 j B Z (j + B * (2 * M2)) = Z (j + B * (2 * M2)) := by
        simp only [innerAcc, hkmod, hkdiv]
        rw [if_neg (by omega), if_neg (by omega)]
      have hreadk2 : innerAcc w M2 j B Z (j + B * (2 * M2) + M2) =
          Z (j + B * (2 * M2) + M2) := by
        simp only [innerAcc, hk2mod, hk2div]
        rw [if_neg (by omega), if_neg (by omega)]
      funext p
      simp only [cbutterfly, Function.update_apply]
      rcases eq_or_ne p (j + B * (2 * M2)) with rfl | hp1
      · rw [if_pos rfl, hreadk, hreadk2]
        simp only [innerAcc]
        have hcc : (j + B * (2 * M2)) % (2 * M2) = j ∧
            (j + B * (2 * M2)) / (2 * M2) < B + 1 := ⟨hkmod, by omega⟩
        rw [if_pos hcc]
      · rw [if_neg hp1]
        rcases eq_or_ne p (j + B * (2 * M2) + M2) with rfl | hp2
        · rw [if_pos rfl, hreadk, hreadk2]
          simp only [innerAcc]
          have hcneg : ¬((j + B * (2 * M2) + M2) % (2 * M2) = j ∧
              (j + B * (2 * M2) + M2) / (2 * M2) < B + 1) := by
            intro hc
            omega
          have hcpos : (j + B * (2 * M2) + M2) % (2 * M2) = j + M2 ∧
              (j + B * (2 * M2) + M2) / (2 * M2) < B + 1 := ⟨hk2mod, by omega⟩
          rw [if_neg hcneg, if_pos hcpos]
          congr 2
          omega
        · rw [if_neg hp2]
          simp only [innerAcc]
          have hdm := Nat.div_add_mod p (2 * M2)
          by_cases hc1 : p % (2 * M2) = j ∧ p / (2 * M2) < B + 1
          · have hlt : p / (2 * M2) < B := by
              rcases Nat.lt_succ_iff_lt_or_eq.mp hc1.2 with hlt | heq
              · exact hlt
              · exfalso
                apply hp1
                rw [heq] at hdm
                have : 2 * M2 * B + j = j + B * (2 * M2) := by ring
                omega
            have hc1b : p % (2 * M2) = j ∧ p / (2 * M2) < B := ⟨hc1.1, hlt⟩
            rw [if_pos hc1, if_pos hc1b]
          · rw [if_neg hc1]
            have hc2 : ¬(p % (2 * M2) = j ∧ p / (2 * M2) < B) := by
              intro hc
              exact hc1 ⟨hc.1, by omega⟩
            rw [if_neg hc2]
            by_cases hc3 : p % (2 * M2) = j + M2 ∧ p / (2 * M2) < B + 1
            · have hlt : p / (2 * M2) < B := by
                rcases Nat.lt_succ_iff_lt_or_eq.mp hc3.2 with hlt | heq
                · exact hlt
                · exfalso
                  apply hp2
                  rw [heq] at hdm
                  have : 2 * M2 * B + (j + M2) = j + B * (2 * M2) + M2 := by ring
                  omega
              have hc3b : p % (2 * M2) = j + M2 ∧ p / (2 * M2) < B := ⟨hc3.1, hlt⟩
              rw [if_pos hc3, if_pos hc3b]
            · rw [if_neg hc3]
              have hc4 : ¬(p % (2 * M2) = j + M2 ∧ p / (2 * M2) < B) := by
                intro hc
                exact hc3 ⟨hc.1, by omega⟩
              rw [if_neg hc4]

/-- The array contents after the outer `j`-loop of one stage has processed
twiddle offsets `0, …, J-1`. -/
def outerAcc (w : ℕ → ℂ) (M2 n J : ℕ) (Z : ℕ → ℂ) : ℕ → ℂ :=
  fun p =>
    if p < n ∧ p % (2 * M2) < J then Z p + w (p % (2 * M2)) * Z (p + M2)
    else if p < n ∧ M2 ≤ p % (2 * M2) ∧ p % (2 * M2) < M2 + J then
      Z (p - M2) - w (p % (2 * M2) - M2) * Z p
    else Z p

lemma outer_fold (w : ℕ → ℂ) (M2 n : ℕ) (hM2 : 0 < M2) (hdvd : 2 * M2 ∣ n)
    (Z : ℕ → ℂ) :
    ∀ J, J ≤ M2 →
      List.foldl
        (fun Z2 j => List.foldl (cbutterfly (w j) M2) Z2 (FFT.iterList j (2 * M2) n))
        Z (List.range J) = outerAcc w M2 n J Z := by
  intro J
  induction J with
  | zero =>
      intro _
      rw [List.range_zero, List.foldl_nil]
      funext p
      simp only [outerAcc]
      have h1 : ¬(p < n ∧ p % (2 * M2) < 0) := by omega
      have h2 : ¬(p < n ∧ M2 ≤ p % (2 * M2) ∧ p % (2 * M2) < M2 + 0) := by omega
      rw [if_neg h1, if_neg h2]
  | succ J ih =>
      intro hJ
      have hJlt : J < M2 := by omega
      rw [List.range_succ, List.foldl_append, ih (by omega), List.foldl_cons,
        List.foldl_nil, iterList_eq J (2 * M2) n (by omega) (by omega) hdvd,
        inner_fold (w J) M2 J hM2 hJlt]
      funext p
      simp only [innerAcc]
      by_cases hc1 : p % (2 * M2) = J ∧ p / (2 * M2) < n / (2 * M2)
      · rw [if_pos hc1]
        have hpn : p < n :=
          (div_lt_div_iff_dvd p n (2 * M2) (by omega) hdvd).mp hc1.2
        have hdm := Nat.div_add_mod p (2 * M2)
        have hz0p : outerAcc w M2 n J Z p = Z p := by
          simp only [outerAcc]
          have e1 : ¬(p < n ∧ p % (2 * M2) < J) := by omega
          have e2 : ¬(p < n ∧ M2 ≤ p % (2 * M2) ∧ p % (2 * M2) < M2 + J) := by
            omega
          rw [if_neg e1, if_neg e2]
        have hmod2 : (p + M2) % (2 * M2) = J + M2 := by
          have e : p + M2 = (J + M2) + 2 * M2 * (p / (2 * M2)) := by omega
          rw [e, Nat.add_mul_mod_self_left]
          exact Nat.mod_eq_of_lt (by omega)
        have hz0p2 : outerAcc w M2 n J Z (p + M2) = Z (p + M2) := by
          simp only [outerAcc]
          have e1 : ¬(p + M2 < n ∧ (p + M2) % (2 * M2) < J) := by omega
          have e2 : ¬(p + M2 < n ∧ M2 ≤ (p + M2) % (2 * M2) ∧
              (p + M2) % (2 * M2) < M2 + J) := by omega
          rw [if_neg e1, if_neg e2]
        rw [hz0p, hz0p2]
        simp only [outerAcc]
        have e3 : p < n ∧ p % (2 * M2) < J + 1 := ⟨hpn, by omega⟩
        rw [if_pos e3, hc1.1]
      · rw [if_neg hc1]
        by_cases hc2 : p % (2 * M2) = J + M2 ∧ p / (2 * M2) < n / (2 * M2)
        · rw [if_pos hc2]
          have hpn : p < n :=
            (div_lt_div_iff_dvd p n (2 * M2) (by omega) hdvd).mp hc2.2
          have hdm := Nat.div_add_mod p (2 * M2)
          have hmodm : (p - M2) % (2 * M2) = J := by
            have e : p - M2 = J + 2 * M2 * (p / (2 * M2)) := by omega
            rw [e, Nat.add_mul_mod_self_left]
            exact Nat.mod_eq_of_lt (by omega)
          have hz0pm : outerAcc w M2 n J Z (p - M2) = Z (p - M2) := by
            simp only [outerAcc]
            have e1 : ¬(p - M2 < n ∧ (p - M2) % (2 * M2) < J) := by omega
            have e2 : ¬(p - M2 < n ∧ M2 ≤ (p - M2) % (2 * M2) ∧
                (p - M2) % (2 * M2) < M2 + J) := by omega
            rw [if_neg e1, if_neg e2]
          have hz0p : outerAcc w M2 n J Z p = Z p := by
            simp only [outerAcc]
            have e1 : ¬(p < n ∧ p % (2 * M2) < J) := by omega
            have e2 : ¬(p < n ∧ M2 ≤ p % (2 * M2) ∧ p % (2 * M2) < M2 + J) := by
              omega
            rw [if_neg e1, if_neg e2]
          rw [hz0pm, hz0p]
          simp only [outerAcc]
          have e3 : ¬(p < n ∧ p % (2 * M2) < J + 1) := by omega
          have e4 : p < n ∧ M2 ≤ p % (2 * M2) ∧ p % (2 * M2) < M2 + (J + 1) := by
            omega
          rw [if_neg e3, if_pos e4, hc2.1]
          have e5 : J + M2 - M2 = J := by omega
          rw [e5]
        · rw [if_neg hc2]
          simp only [outerAcc]
          by_cases hq1 : p < n ∧ p % (2 * M2) < J
          · have e1 : p < n ∧ p % (2 * M2) < J + 1 := ⟨hq1.1, by omega⟩
            rw [if_pos hq1, if_pos e1]
          · rw [if_neg hq1]
            by_cases hq2 : p < n ∧ M2 ≤ p % (2 * M2) ∧ p % (2 * M2) < M2 + J
            · have e1 : ¬(p < n ∧ p % (2 * M2) < J + 1) := by omega
              have e2 : p < n ∧ M2 ≤ p % (2 * M2) ∧
                  p % (2 * M2) < M2 + (J + 1) := ⟨hq2.1, hq2.2.1, by omega⟩
              rw [if_pos hq2, if_neg e1, if_pos e2]
            · rw [if_neg hq2]
              have e1 : ¬(p < n ∧ p % (2 * M2) < J + 1) := by
                intro hc
                have hmodJ : p % (2 * M2) = J := by omega
                exact hc1 ⟨hmodJ,
                  (div_lt_div_iff_dvd p n (2 * M2) (by omega) hdvd).mpr hc.1⟩
              have e2 : ¬(p < n ∧ M2 ≤ p % (2 * M2) ∧
                  p % (2 * M2) < M2 + (J + 1)) := by
                intro hc
                have hmodJ : p % (2 * M2) = J + M2 := by omega
                exact hc2 ⟨hmodJ,
                  (div_lt_div_iff_dvd p n (2 * M2) (by omega) hdvd).mpr hc.1⟩
              rw [if_neg e1, if_neg e2]

/-- One full stage as a parallel gather: for `p < n` with offset
`t = p % (2·M2)`, the new value is `Z p + w t · Z (p + M2)` when `t < M2`
and `Z (p - M2) - w (t - M2) · Z p` otherwise. -/
def stageGather (w : ℕ → ℂ) (M2 n : ℕ) (Z : ℕ → ℂ) : ℕ → ℂ :=
  fun p =>
    if p < n then
      if p % (2 * M2) < M2 then Z p + w (p % (2 * M2)) * Z (p + M2)
      else Z (p - M2) - w (p % (2 * M2) - M2) * Z p
    else Z p

lemma outerAcc_full (w : ℕ → ℂ) (M2 n : ℕ) (hM2 : 0 < M2) (Z : ℕ → ℂ) :
    outerAcc w M2 n M2 Z = stageGather w M2 n Z := by
  funext p
  simp only [outerAcc, stageGather]
  have hmlt : p % (2 * M2) < 2 * M2 := Nat.mod_lt _ (by omega)
  by_cases hpn : p < n
  · by_cases hm : p % (2 * M2) < M2
    · rw [if_pos ⟨hpn, hm⟩, if_pos hpn, if_pos hm]
    · have h1 : ¬(p < n ∧ p % (2 * M2) < M2) := by omega
      have h2 : p < n ∧ M2 ≤ p % (2 * M2) ∧ p % (2 * M2) < M2 + M2 := by omega
      rw [if_neg h1, if_pos h2, if_pos hpn, if_neg hm]
  · have h1 : ¬(p < n ∧ p % (2 * M2) < M2) := by omega
    have h2 : ¬(p < n ∧ M2 ≤ p % (2 * M2) ∧ p % (2 * M2) < M2 + M2) := by omega
    rw [if_neg h1, if_neg h2, if_neg hpn]

lemma cstageStep_eq (cosT sinT : ℕ → ℝ) (n s' : ℕ) (hdvd : 2 ^ (s' + 1) ∣ n)
    (Z : ℕ → ℂ) :
    cstageStep cosT sinT n Z (s' + 1) =
      stageGather
        (fun t => ⟨cosT (t * (n / 2 ^ (s' + 1))), -sinT (t * (n / 2 ^ (s' + 1)))⟩)
        (2 ^ s') n Z := by
  have hpow : (2 : ℕ) ^ (s' + 1) = 2 * 2 ^ s' := by rw [pow_succ]; ring
  have hpos : 0 < (2 : ℕ) ^ s' := Nat.pos_pow_of_pos s' (by omega)
  rw [hpow] at hdvd ⊢
  simp only [cstageStep, hpow, Nat.mul_div_cancel_left _ (by omega : 0 < 2)]
  exact (outer_fold
    (fun t => ⟨cosT (t * (n / (2 * 2 ^ s'))), -sinT (t * (n / (2 * 2 ^ s')))⟩)
    (2 ^ s') n hpos hdvd Z (2 ^ s') le_rfl).trans
      (outerAcc_full _ (2 ^ s') n hpos Z)

/-! ### DFT kernels and twiddle identities -/

/-- The DFT kernel `exp(-2πi·t·u/M)`. -/
noncomputable def E (M t u : ℕ) : ℂ :=
  Complex.exp (-(2 * (Real.pi : ℂ) * t * u / M) * Complex.I)

/-- The stage twiddle `exp(-2πi·t/M)`. -/
noncomputable def twid (M t : ℕ) : ℂ :=
  Complex.exp (-(2 * (Real.pi : ℂ) * t / M) * Complex.I)

lemma exp_neg_pi_mul_I : Complex.exp (-((Real.pi : ℂ) * Complex.I)) = -1 := by
  rw [Complex.exp_neg, Complex.exp_pi_mul_I]
  norm_num

lemma E_one_zero (t : ℕ) : E 1 t 0 = 1 := by
  rw [E]
  norm_num [Complex.exp_zero]

lemma E_even (M2 t v : ℕ) (hM2 : M2 ≠ 0) : E (2 * M2) t (2 * v) = E M2 t v := by
  rw [E, E]
  congr 1
  have h0 : (M2 : ℂ) ≠ 0 := by exact_mod_cast hM2
  push_cast
  field_simp
  ring

lemma E_odd (M2 t v : ℕ) (hM2 : M2 ≠ 0) :
    E (2 * M2) t (2 * v + 1) = twid (2 * M2) t * E M2 t v := by
  rw [E, E, twid, ← Complex.exp_add]
  congr 1
  have h0 : (M2 : ℂ) ≠ 0 := by exact_mod_cast hM2
  push_cast
  field_simp
  ring

lemma E_even_shift (M2 t v : ℕ) (hM2 : M2 ≠ 0) :
    E (2 * M2) (t + M2) (2 * v) = E M2 t v := by
  have h1 : E (2 * M2) (t + M2) (2 * v) =
      E M2 t v * Complex.exp (-((v : ℕ) : ℂ) * (2 * (Real.pi : ℂ) * Complex.I)) := by
    rw [E, E, ← Complex.exp_add]
    congr 1
    have h0 : (M2 : ℂ) ≠ 0 := by exact_mod_cast hM2
    push_cast
    field_simp
    ring
  have h2 : Complex.exp (-((v : ℕ) : ℂ) * (2 * (Real.pi : ℂ) * Complex.I)) = 1 := by
    have h3 := Complex.exp_int_mul_two_pi_mul_I (-(v : ℤ))
    push_cast at h3
    exact h3
  rw [h1, h2, mul_one]

lemma E_odd_shift (M2 t v : ℕ) (hM2 : M2 ≠ 0) :
    E (2 * M2) (t + M2) (2 * v + 1) = -(twid (2 * M2) t * E M2 t v) := by
  have h1 : E (2 * M2) (t + M2) (2 * v + 1) =
      twid (2 * M2) t * E M2 t v *
        Complex.exp (-((v : ℕ) : ℂ) * (2 * (Real.pi : ℂ) * Complex.I)) *
        Complex.exp (-((Real.pi : ℂ) * Complex.I)) := by
    rw [E, E, twid, ← Complex.exp_add, ← Complex.exp_add, ← Complex.exp_add]
    congr 1
    have h0 : (M2 : ℂ) ≠ 0 := by exact_mod_cast hM2
    push_cast
    field_simp
    ring
  have h2 : Complex.exp (-((v : ℕ) : ℂ) * (2 * (Real.pi : ℂ) * Complex.I)) = 1 := by
    have h3 := Complex.exp_int_mul_two_pi_mul_I (-(v : ℤ))
    push_cast at h3
    exact h3
  rw [h1, h2, mul_one, exp_neg_pi_mul_I]
  ring

/-- The precomputed table entry at index `t * (n / M)` is the stage twiddle
`exp(-2πi·t/M)`. -/
lemma table_twiddle (n M t : ℕ) (hn : n ≠ 0) (hM : M ≠ 0) (hdvd : M ∣ n) :
    (⟨Real.cos (2 * Real.pi * ((t * (n / M) : ℕ) : ℝ) / (n : ℝ)),
      -Real.sin (2 * Real.pi * ((t * (n / M) : ℕ) : ℝ) / (n : ℝ))⟩ : ℂ) =
      twid M t := by
  have hnr : (n : ℝ) ≠ 0 := by exact_mod_cast hn
  have hMr : (M : ℝ) ≠ 0 := by exact_mod_cast hM
  have hcast : ((n / M : ℕ) : ℝ) = (n : ℝ) / (M : ℝ) := by
    rw [Nat.cast_div hdvd hMr]
  have harg : 2 * Real.pi * ((t * (n / M) : ℕ) : ℝ) / (n : ℝ) =
      2 * Real.pi * t / M := by
    push_cast [hcast]
    field_simp
    ring
  rw [harg, twid]
  have hexp : -(2 * (Real.pi : ℂ) * t / M) * Complex.I =
      ((-(2 * Real.pi * t / M) : ℝ) : ℂ) * Complex.I := by
    push_cast
    ring
  rw [hexp, Complex.exp_mul_I, Complex.mk_eq_add_mul_I]
  push_cast [Complex.cos_neg, Complex.sin_neg]
  ring

lemma sum_range_even_odd {β : Type} [AddCommMonoid β] (f : ℕ → β) (M : ℕ) :
    ∑ u ∈ Finset.range (2 * M), f u =
      (∑ v ∈ Finset.range M, f (2 * v)) + ∑ v ∈ Finset.range M, f (2 * v + 1) := by
  induction M with
  | zero => simp
  | succ M ih =>
      have h2 : 2 * (M + 1) = 2 * M + 1 + 1 := by ring
      rw [h2, Finset.sum_range_succ, Finset.sum_range_succ, ih,
        Finset.sum_range_succ, Finset.sum_range_succ]
      have e1 : 2 * M + 1 = 2 * M + 1 := rfl
      abel

lemma bitRev_two_mul (k b : ℕ) : bitRev (k + 1) (2 * b) = bitRev k b := by
  show (2 * b) % 2 * 2 ^ k + bitRev k ((2 * b) / 2) = bitRev k b
  have h1 : (2 * b) % 2 = 0 := by omega
  have h2 : (2 * b) / 2 = b := by omega
  rw [h1, h2]
  ring

lemma bitRev_two_mul_add_one (k b : ℕ) :
    bitRev (k + 1) (2 * b + 1) = 2 ^ k + bitRev k b := by
  show (2 * b + 1) % 2 * 2 ^ k + bitRev k ((2 * b + 1) / 2) = 2 ^ k + bitRev k b
  have h1 : (2 * b + 1) % 2 = 1 := by omega
  have h2 : (2 * b + 1) / 2 = b := by omega
  rw [h1, h2]
  ring

/-! ### The stage invariant: blockwise DFT of decimated subsequences -/

/-- After `s` butterfly stages on bit-reversed input, each block of size
`2^s` holds the `2^s`-point DFT of the input decimated by stride `2^(m-s)`,
the decimation phase being the bit reversal of the block index. -/
def dftLayer (X : ℕ → ℂ) (m s : ℕ) (A : ℕ → ℂ) : Prop :=
  ∀ p < 2 ^ m, A p =
    ∑ u ∈ Finset.range (2 ^ s),
      X (u * 2 ^ (m - s) + bitRev (m - s) (p / 2 ^ s)) * E (2 ^ s) (p % 2 ^ s) u

lemma dftLayer_zero (X : ℕ → ℂ) (m : ℕ) (A : ℕ → ℂ)
    (hA : ∀ p < 2 ^ m, A p = X (bitRev m p)) : dftLayer X m 0 A := by
  intro p hp
  rw [hA p hp]
  simp [Finset.sum_range_one, E_one_zero]

lemma dft_split_lo (X : ℕ → ℂ) (M2 g R t : ℕ) (hM2 : M2 ≠ 0) :
    ∑ u ∈ Finset.range (2 * M2), X (u * g + R) * E (2 * M2) t u =
      (∑ v ∈ Finset.range M2, X (v * (2 * g) + R) * E M2 t v) +
        twid (2 * M2) t *
          ∑ v ∈ Finset.range M2, X (v * (2 * g) + (g + R)) * E M2 t v := by
  rw [sum_range_even_odd]
  congr 1
  · apply Finset.sum_congr rfl
    intro v _
    rw [E_even _ _ _ hM2]
    have e : 2 * v * g + R = v * (2 * g) + R := by ring
    rw [e]
  · rw [Finset.mul_sum]
    apply Finset.sum_congr rfl
    intro v _
    rw [E_odd _ _ _ hM2]
    have e : (2 * v + 1) * g + R = v * (2 * g) + (g + R) := by ring
    rw [e]
    ring

lemma dft_split_hi (X : ℕ → ℂ) (M2 g R t : ℕ) (hM2 : M2 ≠ 0) :
    ∑ u ∈ Finset.range (2 * M2), X (u * g + R) * E (2 * M2) (t + M2) u =
      (∑ v ∈ Finset.range M2, X (v * (2 * g) + R) * E M2 t v) -
        twid (2 * M2) t *
          ∑ v ∈ Finset.range M2, X (v * (2 * g) + (g + R)) * E M2 t v := by
  rw [sum_range_even_odd, sub_eq_add_neg]
  congr 1
  · apply Finset.sum_congr rfl
    intro v _
    rw [E_even_shift _ _ _ hM2]
    have e : 2 * v * g + R = v * (2 * g) + R := by ring
    rw [e]
  · rw [Finset.mul_sum, ← Finset.sum_neg_distrib]
    apply Finset.sum_congr rfl
    intro v _
    rw [E_odd_shift _ _ _ hM2]
    have e : (2 * v + 1) * g + R = v * (2 * g) + (g + R) := by ring
    rw [e]
    ring

/-- One butterfly stage advances the invariant. -/
lemma dftLayer_step (X : ℕ → ℂ) (m s' : ℕ) (hs : s' + 1 ≤ m) (A : ℕ → ℂ)
    (hA : dftLayer X m s' A) :
    dftLayer X m (s' + 1)
      (stageGather (fun t => twid (2 ^ (s' + 1)) t) (2 ^ s') (2 ^ m) A) := by
  intro p hp
  have hM2 : 0 < (2 : ℕ) ^ s' := Nat.pos_pow_of_pos _ (by omega)
  have hpow : (2 : ℕ) ^ (s' + 1) = 2 * 2 ^ s' := by rw [pow_succ]; ring
  have hms : m - s' = (m - (s' + 1)) + 1 := by omega
  have hgpow : (2 : ℕ) ^ (m - s') = 2 * 2 ^ (m - (s' + 1)) := by
    rw [hms, pow_succ]; ring
  have hdm := Nat.div_add_mod p (2 * 2 ^ s')
  have hmlt : p % (2 * 2 ^ s') < 2 * 2 ^ s' := Nat.mod_lt _ (by omega)
  have hsize : 2 * 2 ^ s' * 2 ^ (m - (s' + 1)) = 2 ^ m := by
    rw [← hpow, ← pow_add]
    congr 1
    omega
  have hdvd : 2 * 2 ^ s' ∣ 2 ^ m := ⟨2 ^ (m - (s' + 1)), hsize.symm⟩
  have hqlt : p / (2 * 2 ^ s') < 2 ^ (m - (s' + 1)) := by
    have h1 : 2 ^ m / (2 * 2 ^ s') = 2 ^ (m - (s' + 1)) := by
      rw [← hsize, Nat.mul_div_cancel_left _ (by omega)]
    rw [← h1]
    exact (div_lt_div_iff_dvd p (2 ^ m) (2 * 2 ^ s') (by omega) hdvd).mpr hp
  rw [hpow]
  simp only [stageGather]
  rw [if_pos hp]
  by_cases ht : p % (2 * 2 ^ s') < 2 ^ s'
  · rw [if_pos ht]
    have hb1 : 2 ^ s' * (2 * (p / (2 * 2 ^ s'))) =
        2 * 2 ^ s' * (p / (2 * 2 ^ s')) := by ring
    have hple : p = p % (2 * 2 ^ s') + 2 ^ s' * (2 * (p / (2 * 2 ^ s'))) := by
      omega
    have hpm : p % 2 ^ s' = p % (2 * 2 ^ s') := by
      conv_lhs => rw [hple]
      rw [Nat.add_mul_mod_self_left]
      exact Nat.mod_eq_of_lt ht
    have hpd : p / 2 ^ s' = 2 * (p / (2 * 2 ^ s')) := by
      conv_lhs => rw [hple]
      rw [Nat.add_mul_div_left _ _ hM2, Nat.div_eq_of_lt ht, Nat.zero_add]
    have hb2 : 2 ^ s' * (2 * (p / (2 * 2 ^ s')) + 1) =
        2 * 2 ^ s' * (p / (2 * 2 ^ s')) + 2 ^ s' := by ring
    have hp2e : p + 2 ^ s' =
        p % (2 * 2 ^ s') + 2 ^ s' * (2 * (p / (2 * 2 ^ s')) + 1) := by omega
    have hp2m : (p + 2 ^ s') % 2 ^ s' = p % (2 * 2 ^ s') := by
      conv_lhs => rw [hp2e]
      rw [Nat.add_mul_mod_self_left]
      exact Nat.mod_eq_of_lt ht
    have hp2d : (p + 2 ^ s') / 2 ^ s' = 2 * (p / (2 * 2 ^ s')) + 1 := by
      conv_lhs => rw [hp2e]
      rw [Nat.add_mul_div_left _ _ hM2, Nat.div_eq_of_lt ht, Nat.zero_add]
    have hmul : 2 * 2 ^ s' * (p / (2 * 2 ^ s') + 1) ≤
        2 * 2 ^ s' * 2 ^ (m - (s' + 1)) :=
      Nat.mul_le_mul_left _ (by omega)
    have hexpand : 2 * 2 ^ s' * (p / (2 * 2 ^ s') + 1) =
        2 * 2 ^ s' * (p / (2 * 2 ^ s')) + 2 * 2 ^ s' := by ring
    have hp2lt : p + 2 ^ s' < 2 ^ m := by omega
    rw [hA p hp, hA _ hp2lt, hpm, hpd, hp2m, hp2d, hgpow, hms, bitRev_two_mul,
      bitRev_two_mul_add_one,
      dft_split_lo X (2 ^ s') (2 ^ (m - (s' + 1)))
        (bitRev (m - (s' + 1)) (p / (2 * 2 ^ s'))) (p % (2 * 2 ^ s'))
        (by omega)]
  · rw [if_neg ht]
    obtain ⟨t, ht2⟩ : ∃ t, p % (2 * 2 ^ s') = t + 2 ^ s' :=
      ⟨p % (2 * 2 ^ s') - 2 ^ s', by omega⟩
    have htlt : t < 2 ^ s' := by omega
    rw [ht2]
    have hc : t + 2 ^ s' - 2 ^ s' = t := by omega
    rw [hc]
    have hb1 : 2 ^ s' * (2 * (p / (2 * 2 ^ s')) + 1) =
        2 * 2 ^ s' * (p / (2 * 2 ^ s')) + 2 ^ s' := by ring
    have hple : p = t + 2 ^ s' * (2 * (p / (2 * 2 ^ s')) + 1) := by omega
    have hpm : p % 2 ^ s' = t := by
      conv_lhs => rw [hple]
      rw [Nat.add_mul_mod_self_left]
      exact Nat.mod_eq_of_lt htlt
    have hpd : p / 2 ^ s' = 2 * (p / (2 * 2 ^ s')) + 1 := by
      conv_lhs => rw [hple]
      rw [Nat.add_mul_div_left _ _ hM2, Nat.div_eq_of_lt htlt, Nat.zero_add]
    have hb2 : 2 ^ s' * (2 * (p / (2 * 2 ^ s'))) =
        2 * 2 ^ s' * (p / (2 * 2 ^ s')) := by ring
    have hpme : p - 2 ^ s' = t + 2 ^ s' * (2 * (p / (2 * 2 ^ s'))) := by omega
    have hpmm : (p - 2 ^ s') % 2 ^ s' = t := by
      conv_lhs => rw [hpme]
      rw [Nat.add_mul_mod_self_left]
      exact Nat.mod_eq_of_lt htlt
    have hpmd : (p - 2 ^ s') / 2 ^ s' = 2 * (p / (2 * 2 ^ s')) := by
      conv_lhs => rw [hpme]
      rw [Nat.add_mul_div_left _ _ hM2, Nat.div_eq_of_lt htlt, Nat.zero_add]
    have hpmlt : p - 2 ^ s' < 2 ^ m := by omega
    rw [hA p hp, hA _ hpmlt, hpm, hpd, hpmm, hpmd, hgpow, hms, bitRev_two_mul,
      bitRev_two_mul_add_one,
      dft_split_hi X (2 ^ s') (2 ^ (m - (s' + 1)))
        (bitRev (m - (s' + 1)) (p / (2 * 2 ^ s'))) t (by omega)]

/-! ### `forward` computes the DFT -/

lemma zview_foldl_mem {β : Type} (f : (ℕ → ℝ) × (ℕ → ℝ) → β → (ℕ → ℝ) × (ℕ → ℝ))
    (g : (ℕ → ℂ) → β → (ℕ → ℂ)) :
    ∀ (l : List β), (∀ st b, b ∈ l → zview (f st b) = g (zview st) b) →
      ∀ st, zview (List.foldl f st l) = List.foldl g (zview st) l := by
  intro l
  induction l with
  | nil => intro _ st; rfl
  | cons b tl ih =>
      intro hfg st
      rw [List.foldl_cons, List.foldl_cons,
        ih (fun st2 b2 hb2 => hfg st2 b2 (List.mem_cons_of_mem b hb2)) (f st b),
        hfg st b (List.mem_cons_self b tl)]

/-- The table-derived stage twiddle function is `twid`. -/
lemma make_w_eq (n s : ℕ) (hn : n ≠ 0) (hdvd : 2 ^ s ∣ n) :
    (fun t => (⟨(FFT.make realOps n).cosT (t * (n / 2 ^ s)),
        -(FFT.make realOps n).sinT (t * (n / 2 ^ s))⟩ : ℂ)) =
      fun t => twid (2 ^ s) t := by
  funext t
  have h := table_twiddle n (2 ^ s) t hn (by positivity) hdvd
  simpa [FFT.make, realOps] using h

/-- After the bit-reversal loop, position `p < 2^m` holds the input at the
bit-reversed index. -/
lemma zview_bitrev (m : ℕ) (st : (ℕ → ℝ) × (ℕ → ℝ)) :
    ∀ p < 2 ^ m,
      zview ((List.foldl (FFT.bitrevStep (2 ^ m)) (st.1, st.2, 0)
          (List.range (2 ^ m - 1))).1,
        (List.foldl (FFT.bitrevStep (2 ^ m)) (st.1, st.2, 0)
          (List.range (2 ^ m - 1))).2.1) p =
      zview st (bitRev m p) := by
  intro p hp
  have h1 : (2 ^ m - 1) + 1 ≤ 2 ^ m := by
    have : 0 < (2 : ℕ) ^ m := Nat.pos_pow_of_pos _ (by omega)
    omega
  rw [bitrevFold m st.1 st.2 (2 ^ m - 1) h1]
  simp only [zview, brInv]
  by_cases hc : (p < 2 ^ m - 1 ∨ bitRev m p < 2 ^ m - 1) ∧ p < 2 ^ m
  · rw [if_pos hc, if_pos hc]
  · have hrevlt : bitRev m p < 2 ^ m := bitRev_lt m p
    have hpe : p = 2 ^ m - 1 := by
      rcases not_and_or.mp hc with hc1 | hc2
      · push_neg at hc1
        omega
      · omega
    have hre : bitRev m p = 2 ^ m - 1 := by
      rcases not_and_or.mp hc with hc1 | hc2
      · push_neg at hc1
        omega
      · omega
    rw [if_neg hc, if_neg hc, hre, hpe]

/-- The stage loop carries the DFT invariant from `0` up to `s` stages. -/
lemma stages_invariant (m : ℕ) (Z0 : ℕ → ℂ) (X : ℕ → ℂ)
    (h0 : dftLayer X m 0 Z0) :
    ∀ s, s ≤ m →
      dftLayer X m s
        (List.foldl
          (cstageStep (FFT.make realOps (2 ^ m)).cosT (FFT.make realOps (2 ^ m)).sinT (2 ^ m))
          Z0 (List.range' 1 s)) := by
  intro s
  induction s with
  | zero => intro _; exact h0
  | succ s ih =>
      intro hs
      have hconcat : List.range' 1 (s + 1) = List.range' 1 s ++ [1 + 1 * s] :=
        List.range'_concat 1 s
      have he : 1 + 1 * s = s + 1 := by ring
      rw [hconcat, he, List.foldl_append, List.foldl_cons, List.foldl_nil]
      have hdvd : 2 ^ (s + 1) ∣ 2 ^ m := pow_dvd_pow 2 hs
      have hnn : (2 : ℕ) ^ m ≠ 0 := by positivity
      rw [cstageStep_eq _ _ (2 ^ m) s hdvd, make_w_eq (2 ^ m) (s + 1) hnn hdvd]
      exact dftLayer_step X m s hs _ (ih (by omega))

/-- `FFT.forward` with the constructor's real trigonometric tables computes
the discrete Fourier transform `X_q = ∑_u x_u · exp(-2πiqu/n)`. -/
theorem forward_dft (m : ℕ) (st : (ℕ → ℝ) × (ℕ → ℝ)) :
    ∀ q < 2 ^ m,
      zview ((FFT.make realOps (2 ^ m)).forward st) q =
        ∑ u ∈ Finset.range (2 ^ m), zview st u * E (2 ^ m) q u := by
  intro q hq
  have hm : (FFT.make realOps (2 ^ m)).m = m := Nat.log2_two_pow
  have hnval : (FFT.make realOps (2 ^ m)).n = 2 ^ m := rfl
  rw [FFT.forward, hm, hnval]
  have hstages :
      zview (List.foldl (FFT.stageStep (FFT.make realOps (2 ^ m)))
        ((List.foldl (FFT.bitrevStep (2 ^ m)) (st.1, st.2, 0)
            (List.range (2 ^ m - 1))).1,
         (List.foldl (FFT.bitrevStep (2 ^ m)) (st.1, st.2, 0)
            (List.range (2 ^ m - 1))).2.1) (List.range' 1 m)) =
      List.foldl
        (cstageStep (FFT.make realOps (2 ^ m)).cosT (FFT.make realOps (2 ^ m)).sinT (2 ^ m))
        (zview ((List.foldl (FFT.bitrevStep (2 ^ m)) (st.1, st.2, 0)
            (List.range (2 ^ m - 1))).1,
          (List.foldl (FFT.bitrevStep (2 ^ m)) (st.1, st.2, 0)
            (List.range (2 ^ m - 1))).2.1))
        (List.range' 1 m) := by
    apply zview_foldl_mem
    intro st2 s hs
    have hs1 : 1 ≤ s := (List.mem_range'_1.mp hs).1
    exact zview_stageStep (FFT.make realOps (2 ^ m)) st2 s hs1
  rw [hstages]
  have h0 : dftLayer (zview st) m 0
      (zview ((List.foldl (FFT.bitrevStep (2 ^ m)) (st.1, st.2, 0)
          (List.range (2 ^ m - 1))).1,
        (List.foldl (FFT.bitrevStep (2 ^ m)) (st.1, st.2, 0)
          (List.range (2 ^ m - 1))).2.1)) :=
    dftLayer_zero (zview st) m _ (zview_bitrev m st)
  have hfin := stages_invariant m _ (zview st) h0 m le_rfl q hq
  rw [hfin]
  apply Finset.sum_congr rfl
  intro u hu
  have e1 : m - m = 0 := by omega
  have e2 : q / 2 ^ m = 0 := Nat.div_eq_of_lt hq
  have e3 : q % 2 ^ m = q := Nat.mod_eq_of_lt hq
  rw [e1, e2, e3]
  simp [bitRev]

/-! ### DFT inversion and the round trip -/

lemma sum_pow_exp_orth (N q v : ℕ) (hN : 0 < N) (hq : q < N) (hv : v < N) :
    ∑ u ∈ Finset.range N,
        Complex.exp ((((q : ℂ) - v) / N) * (2 * (Real.pi : ℂ) * Complex.I)) ^ u =
      if q = v then (N : ℂ) else 0 := by
  have hNC : (N : ℂ) ≠ 0 := Nat.cast_ne_zero.mpr (by omega)
  by_cases hqv : q = v
  · subst hqv
    simp [Complex.exp_zero]
  · rw [if_neg hqv]
    have hz1 : Complex.exp ((((q : ℂ) - v) / N) * (2 * (Real.pi : ℂ) * Complex.I)) ≠ 1 := by
      intro hcontra
      rw [Complex.exp_eq_one_iff] at hcontra
      obtain ⟨k, hk⟩ := hcontra
      have h2pi : (2 * (Real.pi : ℂ) * Complex.I) ≠ 0 :=
        mul_ne_zero (mul_ne_zero two_ne_zero (by exact_mod_cast Real.pi_ne_zero))
          Complex.I_ne_zero
      have hfrac : ((q : ℂ) - v) / N = k := mul_right_cancel₀ h2pi hk
      rw [div_eq_iff hNC] at hfrac
      have hint : (q : ℤ) - v = k * N := by exact_mod_cast hfrac
      have hqZ : (q : ℤ) < N := by exact_mod_cast hq
      have hvZ : (v : ℤ) < N := by exact_mod_cast hv
      have hNZ : (0 : ℤ) < N := by exact_mod_cast hN
      rcases lt_trichotomy k 0 with hkneg | hk0 | hkpos
      · have hk1 : k ≤ -1 := by omega
        have : k * N ≤ -N := by nlinarith
        omega
      · subst hk0
        have : (q : ℤ) = v := by omega
        exact hqv (by exact_mod_cast this)
      · have hk1 : 1 ≤ k := by omega
        have : (N : ℤ) ≤ k * N := by nlinarith
        omega
    have hzN : Complex.exp ((((q : ℂ) - v) / N) * (2 * (Real.pi : ℂ) * Complex.I)) ^ N = 1 := by
      rw [← Complex.exp_nat_mul]
      have harg : (N : ℂ) * ((((q : ℂ) - v) / N) * (2 * (Real.pi : ℂ) * Complex.I)) =
          (((q : ℤ) - v : ℤ) : ℂ) * (2 * (Real.pi : ℂ) * Complex.I) := by
        push_cast
        field_simp
      rw [harg, Complex.exp_int_mul_two_pi_mul_I]
    rw [geom_sum_eq hz1, hzN]
    simp

lemma conj_E (N q u : ℕ) :
    (starRingEnd ℂ) (E N q u) =
      Complex.exp ((2 * (Real.pi : ℂ) * q * u / N) * Complex.I) := by
  rw [E, ← Complex.exp_conj]
  congr 1
  simp [map_mul, map_div₀, Complex.conj_I, map_ofNat]

lemma E_symm (N t u : ℕ) : E N t u = E N u t := by
  rw [E, E]
  congr 1
  ring

lemma E_mul_conjE (N q u v : ℕ) (hNC : (N : ℂ) ≠ 0) :
    E N u v * (starRingEnd ℂ) (E N q u) =
      Complex.exp ((((q : ℂ) - v) / N) * (2 * (Real.pi : ℂ) * Complex.I)) ^ u := by
  rw [conj_E, E, ← Complex.exp_add, ← Complex.exp_nat_mul]
  congr 1
  push_cast
  field_simp
  ring

lemma zview_re (W : (ℕ → ℝ) × (ℕ → ℝ)) (p : ℕ) : (zview W p).re = W.1 p := rfl

lemma zview_im (W : (ℕ → ℝ) × (ℕ → ℝ)) (p : ℕ) : (zview W p).im = W.2 p := rfl

lemma zview_negIm (Y : (ℕ → ℝ) × (ℕ → ℝ)) (N u : ℕ) (hu : u < N) :
    zview (Y.1, fun i => if i < N then -Y.2 i else Y.2 i) u =
      (starRingEnd ℂ) (zview Y u) := by
  simp only [zview, if_pos hu]
  apply Complex.ext
  · simp [Complex.conj_re]
  · simp [Complex.conj_im]

/-- Both components of `FFT.inverse` at an in-range index, in terms of the
inner forward pass. -/
lemma inverse_apply (p : FFT ℝ) (st : (ℕ → ℝ) × (ℕ → ℝ)) (q : ℕ)
    (hq : q < p.n) :
    (p.inverse st).1 q =
      (p.forward (st.1, fun i => if i < p.n then -st.2 i else st.2 i)).1 q / (p.n : ℝ) ∧
    (p.inverse st).2 q =
      (p.forward (st.1, fun i => if i < p.n then -st.2 i else st.2 i)).2 q / (-(p.n : ℝ)) := by
  simp only [FFT.inverse]
  rw [if_pos hq, if_pos hq]
  exact ⟨rfl, rfl⟩

set_option maxHeartbeats 2000000 in
/-- The exact round trip of the FFT engine over the reals: for a power-of-two
size, `inverse` undoes `forward` on both buffers at every in-range index. -/
theorem fft_roundtrip (m : ℕ) (st : (ℕ → ℝ) × (ℕ → ℝ)) (q : ℕ)
    (hq : q < 2 ^ m) :
    ((FFT.make realOps (2 ^ m)).inverse ((FFT.make realOps (2 ^ m)).forward st)).1 q = st.1 q ∧
    ((FFT.make realOps (2 ^ m)).inverse ((FFT.make realOps (2 ^ m)).forward st)).2 q = st.2 q := by
  have hN : 0 < (2 : ℕ) ^ m := Nat.pos_pow_of_pos _ (by omega)
  have hNC : (((2 : ℕ) ^ m : ℕ) : ℂ) ≠ 0 := Nat.cast_ne_zero.mpr (by omega)
  have hNR : (((2 : ℕ) ^ m : ℕ) : ℝ) ≠ 0 := Nat.cast_ne_zero.mpr (by omega)
  -- the double-forward value in complex form
  have hY2 : zview ((FFT.make realOps (2 ^ m)).forward
      (((FFT.make realOps (2 ^ m)).forward st).1,
       fun i => if i < 2 ^ m then -((FFT.make realOps (2 ^ m)).forward st).2 i
                else ((FFT.make realOps (2 ^ m)).forward st).2 i)) q =
      ((2 ^ m : ℕ) : ℂ) * (starRingEnd ℂ) (zview st q) := by
    rw [forward_dft m _ q hq]
    have hstep1 : ∀ u ∈ Finset.range (2 ^ m),
        zview (((FFT.make realOps (2 ^ m)).forward st).1,
          fun i => if i < 2 ^ m then -((FFT.make realOps (2 ^ m)).forward st).2 i
                   else ((FFT.make realOps (2 ^ m)).forward st).2 i) u *
          E (2 ^ m) q u =
        (starRingEnd ℂ) (zview ((FFT.make realOps (2 ^ m)).forward st) u) *
          E (2 ^ m) q u := by
      intro u hu
      rw [zview_negIm _ (2 ^ m) u (Finset.mem_range.mp hu)]
    rw [Finset.sum_congr rfl hstep1]
    -- expand the inner forward and push the conjugation through
    have hstep2 : ∀ u ∈ Finset.range (2 ^ m),
        (starRingEnd ℂ) (zview ((FFT.make realOps (2 ^ m)).forward st) u) *
          E (2 ^ m) q u =
        ∑ v ∈ Finset.range (2 ^ m),
          (starRingEnd ℂ) (zview st v) *
            ((starRingEnd ℂ) (E (2 ^ m) u v) * E (2 ^ m) q u) := by
      intro u hu
      rw [forward_dft m st u (Finset.mem_range.mp hu), map_sum, Finset.sum_mul]
      apply Finset.sum_congr rfl
      intro v _
      rw [map_mul]
      ring
    rw [Finset.sum_congr rfl hstep2, Finset.sum_comm]
    -- per-`v` inner sums are orthogonality sums for the conjugate kernel
    have hstep3 : ∀ v ∈ Finset.range (2 ^ m),
        ∑ u ∈ Finset.range (2 ^ m),
          (starRingEnd ℂ) (zview st v) *
            ((starRingEnd ℂ) (E (2 ^ m) u v) * E (2 ^ m) q u) =
        (starRingEnd ℂ) (zview st v) *
          (if v = q then ((2 ^ m : ℕ) : ℂ) else 0) := by
      intro v hv
      rw [← Finset.mul_sum]
      congr 1
      have hterm : ∀ u ∈ Finset.range (2 ^ m),
          (starRingEnd ℂ) (E (2 ^ m) u v) * E (2 ^ m) q u =
          Complex.exp ((((v : ℂ) - q) / (2 ^ m : ℕ)) *
            (2 * (Real.pi : ℂ) * Complex.I)) ^ u := by
        intro u _
        rw [show E (2 ^ m) u v = E (2 ^ m) v u from E_symm _ _ _,
          show E (2 ^ m) q u = E (2 ^ m) u q from E_symm _ _ _, mul_comm]
        exact E_mul_conjE (2 ^ m) v u q hNC
      rw [Finset.sum_congr rfl hterm]
      exact sum_pow_exp_orth (2 ^ m) v q hN (Finset.mem_range.mp hv) hq
    rw [Finset.sum_congr rfl hstep3]
    have hsquash : ∀ v ∈ Finset.range (2 ^ m),
        (starRingEnd ℂ) (zview st v) * (if v = q then ((2 ^ m : ℕ) : ℂ) else 0) =
        (if v = q then (starRingEnd ℂ) (zview st v) * ((2 ^ m : ℕ) : ℂ) else 0) := by
      intro v _
      by_cases hvq : v = q
      · rw [if_pos hvq, if_pos hvq]
      · rw [if_neg hvq, if_neg hvq, mul_zero]
    rw [Finset.sum_congr rfl hsquash,
      Finset.sum_ite_eq' (Finset.range (2 ^ m)) q
        (fun v => (starRingEnd ℂ) (zview st v) * ((2 ^ m : ℕ) : ℂ)),
      if_pos (Finset.mem_range.mpr hq)]
    ring
  -- project the complex identity onto the two buffers
  have hfun : (fun i => if i < (FFT.make realOps (2 ^ m)).n
        then -((FFT.make realOps (2 ^ m)).forward st).2 i
        else ((FFT.make realOps (2 ^ m)).forward st).2 i) =
      (fun i => if i < 2 ^ m
        then -((FFT.make realOps (2 ^ m)).forward st).2 i
        else ((FFT.make realOps (2 ^ m)).forward st).2 i) := rfl
  have hnn : (((FFT.make realOps (2 ^ m)).n : ℕ) : ℝ) = ((2 ^ m : ℕ) : ℝ) := rfl
  have hre : ((FFT.make realOps (2 ^ m)).forward
      (((FFT.make realOps (2 ^ m)).forward st).1,
       fun i => if i < 2 ^ m then -((FFT.make realOps (2 ^ m)).forward st).2 i
                else ((FFT.make realOps (2 ^ m)).forward st).2 i)).1 q =
      ((2 ^ m : ℕ) : ℝ) * st.1 q := by
    have h1 : ((FFT.make realOps (2 ^ m)).forward
        (((FFT.make realOps (2 ^ m)).forward st).1,
         fun i => if i < 2 ^ m then -((FFT.make realOps (2 ^ m)).forward st).2 i
                  else ((FFT.make realOps (2 ^ m)).forward st).2 i)).1 q =
        (((2 ^ m : ℕ) : ℂ) * (starRingEnd ℂ) (zview st q)).re := by
      rw [← hY2]
      rfl
    rw [h1, show ((2 ^ m : ℕ) : ℂ) = (((2 ^ m : ℕ) : ℝ) : ℂ) from
        (Complex.ofReal_natCast _).symm,
      Complex.mul_re, Complex.ofReal_re, Complex.ofReal_im, Complex.conj_re,
      Complex.conj_im, zview_re, zview_im]
    ring
  have him : ((FFT.make realOps (2 ^ m)).forward
      (((FFT.make realOps (2 ^ m)).forward st).1,
       fun i => if i < 2 ^ m then -((FFT.make realOps (2 ^ m)).forward st).2 i
                else ((FFT.make realOps (2 ^ m)).forward st).2 i)).2 q =
      -(((2 ^ m : ℕ) : ℝ) * st.2 q) := by
    have h1 : ((FFT.make realOps (2 ^ m)).forward
        (((FFT.make realOps (2 ^ m)).forward st).1,
         fun i => if i < 2 ^ m then -((FFT.make realOps (2 ^ m)).forward st).2 i
                  else ((FFT.make realOps (2 ^ m)).forward st).2 i)).2 q =
        (((2 ^ m : ℕ) : ℂ) * (starRingEnd ℂ) (zview st q)).im := by
      rw [← hY2]
      rfl
    rw [h1, show ((2 ^ m : ℕ) : ℂ) = (((2 ^ m : ℕ) : ℝ) : ℂ) from
        (Complex.ofReal_natCast _).symm,
      Complex.mul_im, Complex.ofReal_re, Complex.ofReal_im, Complex.conj_re,
      Complex.conj_im, zview_re, zview_im]
    ring
  obtain ⟨hi1, hi2⟩ :=
    inverse_apply (FFT.make realOps (2 ^ m)) ((FFT.make realOps (2 ^ m)).forward st) q hq
  rw [hi1, hi2, hfun, hnn, hre, him]
  constructor
  · field_simp
  · field_simp

/-! ## C4: mel filterbank shape -/

/-- `melToHz` is monotone (the base-10 power map is). -/
lemma melToHz_mono (a b : ℝ) (hab : a ≤ b) :
    melToHz realOps a ≤ melToHz realOps b := by
  simp only [melToHz, realOps]
  have h1 : (10 : ℝ) ^ (a / 2595) ≤ (10 : ℝ) ^ (b / 2595) := by
    rw [Real.rpow_le_rpow_left_iff (by norm_num : (1 : ℝ) < 10)]
    linarith
  linarith

/-- `melToHz` of a nonnegative mel value is nonnegative. -/
lemma melToHz_nonneg (a : ℝ) (ha : 0 ≤ a) : 0 ≤ melToHz realOps a := by
  simp only [melToHz, realOps]
  have h1 : (10 : ℝ) ^ (0 : ℝ) ≤ (10 : ℝ) ^ (a / 2595) := by
    rw [Real.rpow_le_rpow_left_iff (by norm_num : (1 : ℝ) < 10)]
    positivity
  rw [Real.rpow_zero] at h1
  linarith

/-- `hzToMel 0 = 0`. -/
lemma hzToMel_zero : hzToMel realOps 0 = 0 := by
  simp [hzToMel, realOps]

/-- `hzToMel` of a nonnegative frequency is nonnegative. -/
lemma hzToMel_nonneg (x : ℝ) (hx : 0 ≤ x) : 0 ≤ hzToMel realOps x := by
  simp only [hzToMel, realOps]
  have h1 : 0 ≤ Real.logb 10 (1 + x / 700) :=
    Real.logb_nonneg (by norm_num) (by linarith [div_nonneg hx (by norm_num : (0:ℝ) ≤ 700)])
  linarith

/-- `melToHz` inverts `hzToMel` on nonnegative frequencies. -/
lemma melToHz_hzToMel (x : ℝ) (hx : 0 ≤ x) :
    melToHz realOps (hzToMel realOps x) = x := by
  simp only [melToHz, hzToMel, realOps]
  have hy : (0 : ℝ) < 1 + x / 700 := by
    have := div_nonneg hx (by norm_num : (0:ℝ) ≤ 700)
    linarith
  rw [mul_div_cancel_left₀ _ (by norm_num : (2595 : ℝ) ≠ 0),
    Real.rpow_logb (by norm_num) (by norm_num) hy]
  ring

/-- Every mel boundary frequency is nonnegative. -/
lemma melPoints_nonneg (sr mB i : ℕ) : 0 ≤ melPoints realOps sr mB i := by
  simp only [melPoints]
  apply melToHz_nonneg
  rw [hzToMel_zero, zero_add, sub_zero]
  have hmax : 0 ≤ hzToMel realOps ((sr : ℝ) / 2) :=
    hzToMel_nonneg _ (by positivity)
  exact div_nonneg (mul_nonneg (by positivity) hmax) (by positivity)

/-- The mel boundary frequencies are monotone in the index. -/
lemma melPoints_mono (sr mB : ℕ) {i j : ℕ} (hij : i ≤ j) :
    melPoints realOps sr mB i ≤ melPoints realOps sr mB j := by
  simp only [melPoints]
  apply melToHz_mono
  have hΔ : 0 ≤ hzToMel realOps ((sr : ℝ) / 2) - hzToMel realOps 0 := by
    rw [hzToMel_zero, sub_zero]
    exact hzToMel_nonneg _ (by positivity)
  have hij' : (i : ℝ) ≤ (j : ℝ) := by exact_mod_cast hij
  have hm : (0 : ℝ) < (mB : ℝ) + 1 := by positivity
  have h1 := mul_le_mul_of_nonneg_right hij' hΔ
  have h2 := (div_le_div_right hm).mpr h1
  linarith

/-- The mel boundary frequencies never exceed the Nyquist frequency. -/
lemma melPoints_le (sr mB : ℕ) (i : ℕ) (hi : i ≤ mB + 1) :
    melPoints realOps sr mB i ≤ (sr : ℝ) / 2 := by
  have h1 : melPoints realOps sr mB i ≤ melPoints realOps sr mB (mB + 1) :=
    melPoints_mono sr mB hi
  have h2 : melPoints realOps sr mB (mB + 1) = (sr : ℝ) / 2 := by
    simp only [melPoints, hzToMel_zero, zero_add, sub_zero]
    rw [show ((mB + 1 : ℕ) : ℝ) = (mB : ℝ) + 1 by push_cast; ring,
      mul_div_cancel_left₀ _ (by positivity : ((mB : ℝ) + 1) ≠ 0)]
    exact melToHz_hzToMel _ (by positivity)
  linarith

/-- Every bin point index is nonnegative. -/
lemma binPoints_nonneg (sr n mB i : ℕ) : 0 ≤ binPoints realOps sr n mB i := by
  simp only [binPoints]
  apply Int.floor_nonneg.mpr
  apply div_nonneg _ (by positivity)
  exact mul_nonneg (by positivity) (melPoints_nonneg sr mB i)

/-- The bin points are monotone in the index. -/
lemma binPoints_mono (sr n mB : ℕ) (hsr : 0 < sr) {i j : ℕ} (hij : i ≤ j) :
    binPoints realOps sr n mB i ≤ binPoints realOps sr n mB j := by
  simp only [binPoints]
  apply Int.floor_le_floor
  have hsr' : (0 : ℝ) < (sr : ℝ) := by exact_mod_cast hsr
  apply (div_le_div_right hsr').mpr
  exact mul_le_mul_of_nonneg_left (melPoints_mono sr mB hij) (by positivity)

/-- For an even window size and positive sample rate, every bin point stays
within `[0, n/2]`: the Nyquist point maps to `floor((n+1)/2) = n/2`. -/
lemma binPoints_le_half (sr n mB : ℕ) (hsr : 0 < sr) (hn2 : n % 2 = 0)
    (i : ℕ) (hi : i ≤ mB + 1) :
    binPoints realOps sr n mB i ≤ ((n / 2 : ℕ) : ℤ) := by
  simp only [binPoints]
  have hsr' : (0 : ℝ) < (sr : ℝ) := by exact_mod_cast hsr
  have h1 : ((n : ℝ) + 1) * melPoints realOps sr mB i / (sr : ℝ) ≤
      ((n : ℝ) + 1) / 2 := by
    have hmp := melPoints_le sr mB i hi
    rw [div_le_div_iff hsr' (by norm_num : (0 : ℝ) < 2)]
    have h := mul_le_mul_of_nonneg_left hmp (by positivity : (0:ℝ) ≤ (n : ℝ) + 1)
    have hexp : ((n : ℝ) + 1) * ((sr : ℝ) / 2) * 2 = ((n : ℝ) + 1) * (sr : ℝ) := by
      ring
    nlinarith [h]
  have h2 : (⌊((n : ℝ) + 1) / 2⌋ : ℤ) = ((n / 2 : ℕ) : ℤ) := by
    obtain ⟨k, hk⟩ : ∃ k, n = 2 * k := ⟨n / 2, by omega⟩
    subst hk
    have hhalf : ((2 * k : ℕ) : ℝ) + 1 = 2 * (k : ℝ) + 1 := by push_cast; ring
    have hdiv : (2 * (k : ℝ) + 1) / 2 = (k : ℝ) + 1 / 2 := by ring
    have hfl : ⌊(k : ℝ) + 1 / 2⌋ = (k : ℤ) := by
      rw [Int.floor_eq_iff]
      constructor
      · push_cast; linarith
      · push_cast; linarith
    rw [hhalf, hdiv, hfl]
    congr 1
    omega
  calc ⌊((n : ℝ) + 1) * melPoints realOps sr mB i / (sr : ℝ)⌋
      ≤ ⌊((n : ℝ) + 1) / 2⌋ := Int.floor_le_floor h1
    _ = ((n / 2 : ℕ) : ℤ) := h2

/-- C4: for every even window size `n`, positive sample rate and every filter
index `i < melBinsCount`, the boundary bins `b0 ≤ b1 ≤ b2` all lie in
`[0, n/2]`, the filter rises linearly (value `(j-b0)/(b1-b0)`, hence `0` at
`j = b0`) on `[b0, b1)`, equals `1` at the center bin `b1` whenever
`b1 < b2`, falls linearly (value `(b2-j)/(b2-b1)`, reaching `0` at `j = b2`)
on `[b1, b2)`, and is `0` at every bin outside `[b0, b2)` — which includes
every bin of a zero-width segment (coincident boundary bins), so no weight is
ever the `0/0` form; all nonzero weights lie at indices `≤ n/2`. -/
theorem c4_filterbank_shape (sr n mB : ℕ) (hsr : 0 < sr) (hn2 : n % 2 = 0)
    (i : ℕ) (hi : i < mB) :
    (0 ≤ binPoints realOps sr n mB i ∧
     binPoints realOps sr n mB i ≤ binPoints realOps sr n mB (i + 1) ∧
     binPoints realOps sr n mB (i + 1) ≤ binPoints realOps sr n mB (i + 2) ∧
     binPoints realOps sr n mB (i + 2) ≤ ((n / 2 : ℕ) : ℤ)) ∧
    (∀ j : ℕ, binPoints realOps sr n mB i ≤ (j : ℤ) →
      (j : ℤ) < binPoints realOps sr n mB (i + 1) →
      melFilter realOps sr n mB i j =
        ((j : ℝ) - ((binPoints realOps sr n mB i : ℤ) : ℝ)) /
          (((binPoints realOps sr n mB (i + 1) : ℤ) : ℝ) -
            ((binPoints realOps sr n mB i : ℤ) : ℝ))) ∧
    (∀ j : ℕ, (j : ℤ) = binPoints realOps sr n mB (i + 1) →
      binPoints realOps sr n mB (i + 1) < binPoints realOps sr n mB (i + 2) →
      melFilter realOps sr n mB i j = 1) ∧
    (∀ j : ℕ, binPoints realOps sr n mB (i + 1) ≤ (j : ℤ) →
      (j : ℤ) < binPoints realOps sr n mB (i + 2) →
      melFilter realOps sr n mB i j =
        (((binPoints realOps sr n mB (i + 2) : ℤ) : ℝ) - (j : ℝ)) /
          (((binPoints realOps sr n mB (i + 2) : ℤ) : ℝ) -
            ((binPoints realOps sr n mB (i + 1) : ℤ) : ℝ))) ∧
    (∀ j : ℕ, ((j : ℤ) < binPoints realOps sr n mB i ∨
        binPoints realOps sr n mB (i + 2) ≤ (j : ℤ)) →
      melFilter realOps sr n mB i j = 0) ∧
    (∀ j : ℕ, melFilter realOps sr n mB i j ≠ 0 → j ≤ n / 2) := by
  have hb01 : binPoints realOps sr n mB i ≤ binPoints realOps sr n mB (i + 1) :=
    binPoints_mono sr n mB hsr (by omega)
  have hb12 : binPoints realOps sr n mB (i + 1) ≤ binPoints realOps sr n mB (i + 2) :=
    binPoints_mono sr n mB hsr (by omega)
  have hb0 : 0 ≤ binPoints realOps sr n mB i := binPoints_nonneg sr n mB i
  have hb2 : binPoints realOps sr n mB (i + 2) ≤ ((n / 2 : ℕ) : ℤ) :=
    binPoints_le_half sr n mB hsr hn2 (i + 2) (by omega)
  refine ⟨⟨hb0, hb01, hb12, hb2⟩, ?_, ?_, ?_, ?_, ?_⟩
  · -- rising segment
    intro j hj0 hj1
    have hjhalf : j ≤ n / 2 := by
      have : (j : ℤ) < ((n / 2 : ℕ) : ℤ) := lt_of_lt_of_le hj1 (le_trans hb12 hb2)
      omega
    simp only [melFilter]
    have hc1 : ¬ (binPoints realOps sr n mB (i + 1) ≤ (j : ℤ) ∧
        (j : ℤ) < binPoints realOps sr n mB (i + 2)) := by
      rintro ⟨h, -⟩
      omega
    rw [if_pos hjhalf, if_neg hc1, if_pos ⟨hj0, hj1⟩]
  · -- weight 1 at the center bin
    intro j hj hlt
    have hjhalf : j ≤ n / 2 := by
      have : (j : ℤ) ≤ ((n / 2 : ℕ) : ℤ) := by omega
      omega
    simp only [melFilter]
    have hc1 : binPoints realOps sr n mB (i + 1) ≤ (j : ℤ) ∧
        (j : ℤ) < binPoints realOps sr n mB (i + 2) := by omega
    rw [if_pos hjhalf, if_pos hc1]
    have hjr : ((j : ℕ) : ℝ) = ((binPoints realOps sr n mB (i + 1) : ℤ) : ℝ) := by
      exact_mod_cast congrArg (fun z : ℤ => (z : ℝ)) hj
    rw [hjr]
    have hne : ((binPoints realOps sr n mB (i + 2) : ℤ) : ℝ) -
        ((binPoints realOps sr n mB (i + 1) : ℤ) : ℝ) ≠ 0 := by
      have : ((binPoints realOps sr n mB (i + 1) : ℤ) : ℝ) <
          ((binPoints realOps sr n mB (i + 2) : ℤ) : ℝ) := by exact_mod_cast hlt
      linarith
    exact div_self hne
  · -- falling segment
    intro j hj1 hj2
    have hjhalf : j ≤ n / 2 := by
      have : (j : ℤ) < ((n / 2 : ℕ) : ℤ) := lt_of_lt_of_le hj2 hb2
      omega
    simp only [melFilter]
    rw [if_pos hjhalf, if_pos ⟨hj1, hj2⟩]
  · -- zero outside the boundary bins
    intro j hout
    by_cases hjhalf : j ≤ n / 2
    · simp only [melFilter]
      have hc1 : ¬ (binPoints realOps sr n mB (i + 1) ≤ (j : ℤ) ∧
          (j : ℤ) < binPoints realOps sr n mB (i + 2)) := by
        rintro ⟨h1, h2⟩
        rcases hout with h | h <;> omega
      have hc2 : ¬ (binPoints realOps sr n mB i ≤ (j : ℤ) ∧
          (j : ℤ) < binPoints realOps sr n mB (i + 1)) := by
        rintro ⟨h1, h2⟩
        rcases hout with h | h <;> omega
      rw [if_pos hjhalf, if_neg hc1, if_neg hc2]
    · simp only [melFilter]
      rw [if_neg hjhalf]
  · -- support within [0, n/2]
    intro j hne
    by_contra hjhalf
    apply hne
    simp only [melFilter]
    rw [if_neg (by omega : ¬ j ≤ n / 2)]

/-- Witness for C4 at `sr = 2`, `n = 4`, one mel bin, filter 0. -/
theorem c4_filterbank_shape_witness :
    0 < 2 ∧ 4 % 2 = 0 ∧ 0 < 1 ∧
    ((0 ≤ binPoints realOps 2 4 1 0 ∧
      binPoints realOps 2 4 1 0 ≤ binPoints realOps 2 4 1 1 ∧
      binPoints realOps 2 4 1 1 ≤ binPoints realOps 2 4 1 2 ∧
      binPoints realOps 2 4 1 2 ≤ ((4 / 2 : ℕ) : ℤ)) ∧
    (∀ j : ℕ, binPoints realOps 2 4 1 0 ≤ (j : ℤ) →
      (j : ℤ) < binPoints realOps 2 4 1 1 →
      melFilter realOps 2 4 1 0 j =
        ((j : ℝ) - ((binPoints realOps 2 4 1 0 : ℤ) : ℝ)) /
          (((binPoints realOps 2 4 1 1 : ℤ) : ℝ) -
            ((binPoints realOps 2 4 1 0 : ℤ) : ℝ))) ∧
    (∀ j : ℕ, (j : ℤ) = binPoints realOps 2 4 1 1 →
      binPoints realOps 2 4 1 1 < binPoints realOps 2 4 1 2 →
      melFilter realOps 2 4 1 0 j = 1) ∧
    (∀ j : ℕ, binPoints realOps 2 4 1 1 ≤ (j : ℤ) →
      (j : ℤ) < binPoints realOps 2 4 1 2 →
      melFilter realOps 2 4 1 0 j =
        (((binPoints realOps 2 4 1 2 : ℤ) : ℝ) - (j : ℝ)) /
          (((binPoints realOps 2 4 1 2 : ℤ) : ℝ) -
            ((binPoints realOps 2 4 1 1 : ℤ) : ℝ))) ∧
    (∀ j : ℕ, ((j : ℤ) < binPoints realOps 2 4 1 0 ∨
        binPoints realOps 2 4 1 2 ≤ (j : ℤ)) →
      melFilter realOps 2 4 1 0 j = 0) ∧
    (∀ j : ℕ, melFilter realOps 2 4 1 0 j ≠ 0 → j ≤ 4 / 2)) :=
  ⟨by norm_num, by norm_num, by norm_num,
    c4_filterbank_shape 2 4 1 (by norm_num) (by norm_num) 0 (by norm_num)⟩

/-! ## C9: reconstruction with an empty mask list -/

/-- With no mask intervals the per-frame mask test is false, so the frame
spectrum is the forward transform of the windowed frame and the inverse
transform recovers the windowed frame exactly (power-of-two sizes). -/
lemma frameSpectrum_nil_inverse (m : ℕ) (data : ℕ → ℝ) (start : ℕ) (tp : ℝ)
    (j : ℕ) (hj : j < 2 ^ m) :
    ((FFT.make realOps (2 ^ m)).inverse
        (frameSpectrum realOps data [] (2 ^ m) start tp)).1 j =
      frameRe realOps data start (2 ^ m) j ∧
    ((FFT.make realOps (2 ^ m)).inverse
        (frameSpectrum realOps data [] (2 ^ m) start tp)).2 j = 0 := by
  have hfs : frameSpectrum realOps data [] (2 ^ m) start tp =
      (FFT.make realOps (2 ^ m)).forward
        (frameRe realOps data start (2 ^ m), fun _ => 0) := by
    simp [frameSpectrum, isTimeMasked]
  rw [hfs]
  simpa using fft_roundtrip m (frameRe realOps data start (2 ^ m), fun _ => 0) j hj

/-- One reconstruction step with an empty mask list preserves the invariant
`reconstructed[q] = data[q] * norm[q]`: the inverse transform returns the
windowed frame, so the overlap-add adds `data[q] * w[q-start]^2` to the
accumulator exactly when `w[q-start]^2` is added to the norm. -/
lemma reconStep_nil_invariant (m : ℕ) (data : ℕ → ℝ) (L : ℕ) (h : ℤ)
    (st : (ℕ → ℝ) × (ℕ → ℝ)) (f q : ℕ)
    (hst : st.1 q = data q * st.2 q) :
    (reconStep realOps data [] L (2 ^ m) h st f).1 q =
      data q * (reconStep realOps data [] L (2 ^ m) h st f).2 q := by
  simp only [reconStep]
  by_cases hc : ((f : ℤ) * h).toNat ≤ q ∧ q < ((f : ℤ) * h).toNat + 2 ^ m
  · rw [if_pos hc, if_pos hc]
    have hq1 : q - ((f : ℤ) * h).toNat < 2 ^ m := by omega
    rw [(frameSpectrum_nil_inverse m data _ _ _ hq1).1]
    simp only [frameRe]
    rw [if_pos hq1]
    have hqs : ((f : ℤ) * h).toNat + (q - ((f : ℤ) * h).toNat) = q := by omega
    rw [hqs, hst]
    ring
  · rw [if_neg hc, if_neg hc, hst]

/-- After the whole frame loop with an empty mask list, the accumulated
reconstruction equals the input sample times the accumulated window energy at
every index. -/
lemma overlapState_nil (n m : ℕ) (hn : n = 2 ^ m) (data : ℕ → ℝ) (L : ℕ)
    (h : ℤ) (q : ℕ) :
    (overlapState realOps data [] L n h).1 q =
      data q * (overlapState realOps data [] L n h).2 q := by
  subst hn
  rw [overlapState]
  suffices H : ∀ (fs : List ℕ) (st : (ℕ → ℝ) × (ℕ → ℝ)),
      st.1 q = data q * st.2 q →
      (List.foldl (reconStep realOps data [] L (2 ^ m) h) st fs).1 q =
        data q *
          (List.foldl (reconStep realOps data [] L (2 ^ m) h) st fs).2 q by
    exact H _ _ (by simp)
  intro fs
  induction fs with
  | nil => intro st hst; simpa using hst
  | cons f fs ih =>
      intro st hst
      simp only [List.foldl_cons]
      exact ih _ (reconStep_nil_invariant m data L h st f q hst)

/-- C9 (amended): with an empty mask list no frame is zeroed, and each output
sample equals the input sample exactly wherever the accumulated window energy
exceeds the `1e-10` guard; where it does not (signal edges, and window zeros
such as `w[0] = w[n-1] = 0`), the output is the input sample scaled by that
accumulated energy instead — so the original claim's uniform relative-RMS
bound fails on signals concentrated at such samples. -/
theorem c9_empty_mask_identity (n m : ℕ) (hn : n = 2 ^ m) (data : ℕ → ℝ)
    (L sr : ℕ) (h : ℤ) (i : ℕ) (hi : i < L) :
    (applyMaskAndReconstruct realOps data L sr [] n h).samples.getD i 0 =
      (if (1 / 10 ^ 10 : ℝ) < (overlapState realOps data [] L n h).2 i
       then data i
       else data i * (overlapState realOps data [] L n h).2 i) := by
  rw [recon_sample_eq realOps data L sr [] n h i hi]
  by_cases hg : (1 / 10 ^ 10 : ℝ) < (overlapState realOps data [] L n h).2 i
  · rw [if_pos hg, if_pos hg, overlapState_nil n m hn data L h i]
    have hne : (overlapState realOps data [] L n h).2 i ≠ 0 :=
      ne_of_gt (lt_trans (by norm_num) hg)
    rw [mul_div_assoc, div_self hne, mul_one]
  · rw [if_neg hg, if_neg hg, overlapState_nil n m hn data L h i]

/-- Witness for C9 at `n = 4 = 2^2`, hop `2`, an 8-sample constant signal. -/
theorem c9_empty_mask_identity_witness :
    (applyMaskAndReconstruct realOps (fun _ => 1) 8 3 [] 4 2).samples.getD 0 0 =
      (if (1 / 10 ^ 10 : ℝ) < (overlapState realOps (fun _ => 1) [] 8 4 2).2 0
       then (1 : ℝ)
       else 1 * (overlapState realOps (fun _ => 1) [] 8 4 2).2 0) :=
  c9_empty_mask_identity 4 2 (by norm_num) (fun _ => 1) 8 3 2 0 (by norm_num)

/-- A unit impulse at sample 0: the input refuting the original C9 bound. -/
def deltaSignal : ℕ → ℝ := fun i => if i = 0 then 1 else 0

/-- `hanningWindow 4` vanishes at index 0: `0.5 * (1 - cos 0) = 0`. -/
lemma hanning_four_zero : hanningWindow realOps 4 0 = 0 := by
  simp [hanningWindow, realOps]

/-- `numFrames` for an 8-sample signal, window 4, hop 2. -/
lemma numFrames_eight : numFrames 8 4 2 = 2 := by
  rw [numFrames]
  norm_num

/-- The accumulated window energy at sample 0 is exactly zero for window 4,
hop 2, an 8-sample signal: only frame 0 touches index 0, through `w[0] = 0`. -/
lemma normAcc_eight_zero :
    (overlapState realOps deltaSignal [] 8 4 2).2 0 = 0 := by
  have h2 : (numFrames 8 4 2).toNat = 2 := by rw [numFrames_eight]; rfl
  rw [overlapState, h2, show List.range 2 = [0, 1] from rfl]
  simp only [List.foldl_cons, List.foldl_nil]
  norm_num [reconStep, hanning_four_zero]

/-- Every output sample of the empty-mask reconstruction of the unit impulse
is zero: at index 0 the window energy guard fails and the accumulator holds
`1 * 0`, elsewhere the input is zero. -/
lemma recon_delta_zero : ∀ i < 8,
    (applyMaskAndReconstruct realOps deltaSignal 8 3 [] 4 2).samples.getD i 0
      = 0 := by
  intro i hi
  rw [recon_sample_eq realOps deltaSignal 8 3 [] 4 2 i hi]
  by_cases hzero : i = 0
  · subst hzero
    rw [overlapState_nil 4 2 (by norm_num) deltaSignal 8 2 0, normAcc_eight_zero]
    norm_num
  · have hdata : deltaSignal i = 0 := by simp [deltaSignal, hzero]
    rw [overlapState_nil 4 2 (by norm_num) deltaSignal 8 2 i, hdata]
    simp

/-- Counterexample to C9 as stated: for the unit impulse over 8 samples with
window 4 and hop 2 and an empty mask list, the reconstruction is identically
zero, so the squared error equals the signal energy — the relative RMS
difference is 1, not below `1e-3`. -/
theorem c9_empty_mask_rms_counterexample :
    (∑ i ∈ Finset.range 8,
        ((applyMaskAndReconstruct realOps deltaSignal 8 3 [] 4 2).samples.getD
            i 0 - deltaSignal i) ^ 2) =
      (∑ i ∈ Finset.range 8, deltaSignal i ^ 2) ∧
    ¬ (∑ i ∈ Finset.range 8,
        ((applyMaskAndReconstruct realOps deltaSignal 8 3 [] 4 2).samples.getD
            i 0 - deltaSignal i) ^ 2) <
        (1 / 1000) ^ 2 * ∑ i ∈ Finset.range 8, deltaSignal i ^ 2 := by
  have hsum : (∑ i ∈ Finset.range 8,
      ((applyMaskAndReconstruct realOps deltaSignal 8 3 [] 4 2).samples.getD
          i 0 - deltaSignal i) ^ 2) =
      ∑ i ∈ Finset.range 8, deltaSignal i ^ 2 := by
    apply Finset.sum_congr rfl
    intro i hi
    rw [recon_delta_zero i (Finset.mem_range.mp hi)]
    ring
  have hδ : (∑ i ∈ Finset.range 8, deltaSignal i ^ 2) = 1 := by
    simp [deltaSignal, Finset.sum_range_succ]
  constructor
  · exact hsum
  · rw [hsum, hδ]
    norm_num

/-! ## C1: the FFT round trip -/

/-- C1: for every power-of-two size `n = 2^m` and all real/imaginary buffers,
`inverseTransform (forwardTransform x) = x` at every in-range index — the
inverse being implemented as negate-imaginary, run `forward`, then scale the
real buffer by `1/n` and the imaginary buffer by `-1/n`.  In the
real-arithmetic idealization of the floats the round trip is exact, which
subsumes the claim's floating-point tolerance. -/
theorem c1_fft_round_trip (n m : ℕ) (hn : n = 2 ^ m) (re im : ℕ → ℝ)
    (q : ℕ) (hq : q < n) :
    ((FFT.make realOps n).inverse ((FFT.make realOps n).forward (re, im))).1 q = re q ∧
    ((FFT.make realOps n).inverse ((FFT.make realOps n).forward (re, im))).2 q = im q := by
  subst hn
  exact fft_roundtrip m (re, im) q hq

/-- Witness for C1 at `n = 2^0 = 1` and the buffers `re = 2`, `im = 3`. -/
theorem c1_fft_round_trip_witness :
    ((FFT.make realOps 1).inverse ((FFT.make realOps 1).forward
      (fun _ => 2, fun _ => 3))).1 0 = (2 : ℝ) ∧
    ((FFT.make realOps 1).inverse ((FFT.make realOps 1).forward
      (fun _ => 2, fun _ => 3))).2 0 = (3 : ℝ) :=
  c1_fft_round_trip 1 0 (by norm_num) (fun _ => 2) (fun _ => 3) 0 (by norm_num)

end AudioCore
